import Mathlib

/-!
# Verification of the Forbidden-Memories card-game engine and its minimax AI

Shallow embedding of the game engine (`cards.py`, `game_state.py`) and the
search engine (`minimax.py`).  Python's mutable objects are modelled as
immutable Lean structures; every mutating method becomes a function that
returns the updated value(s).  Machine integers are `ℤ`, Python floats in the
evaluation function are exact rationals `ℚ`, Python lists are `List`s, and
`None`-returning operations return `Option`s.
-/

set_option maxRecDepth 10000

namespace FMGame

/-- The guardian-star dominance table, `GUARDIAN_STARS` in `cards.py`:
each star maps to its `strong` (the star it beats) and its `weak`
(the star that beats it). -/
def GUARDIAN_STARS : List (String × String × String) :=
  [ ("Sol",     "Luna",    "Mercurio"),
    ("Luna",    "Venus",   "Sol"),
    ("Venus",   "Mercurio","Luna"),
    ("Mercurio","Sol",     "Venus"),
    ("Marte",   "Jupiter", "Neptuno"),
    ("Jupiter", "Saturno", "Marte"),
    ("Saturno", "Urano",   "Jupiter"),
    ("Urano",   "Pluton",  "Saturno"),
    ("Pluton",  "Neptuno", "Urano"),
    ("Neptuno", "Marte",   "Pluton") ]

/-- The ten guardian-star names (the keys of `GUARDIAN_STARS`). -/
def starNames : List String := GUARDIAN_STARS.map (·.1)

/-- Dictionary lookup in `GUARDIAN_STARS`: returns `(strong, weak)`. -/
def gsLookup (star : String) : Option (String × String) :=
  (GUARDIAN_STARS.find? (·.1 == star)).map (·.2)

/-- The star a given star is strong against (`GUARDIAN_STARS[s]["strong"]`). -/
def strongOf (star : String) : Option String := (gsLookup star).map (·.1)

/-- The star a given star is weak against (`GUARDIAN_STARS[s]["weak"]`). -/
def weakOf (star : String) : Option String := (gsLookup star).map (·.2)

/-- `ATTRIBUTE_TO_STARS` from `cards.py`. -/
def ATTRIBUTE_TO_STARS : List (String × String × String) :=
  [ ("Light",  "Sol",     "Mercurio"),
    ("Dark",   "Luna",    "Venus"),
    ("Fire",   "Marte",   "Sol"),
    ("Water",  "Neptuno", "Luna"),
    ("Earth",  "Urano",   "Jupiter"),
    ("Wind",   "Saturno", "Jupiter"),
    ("Divine", "Sol",     "Luna") ]

/-- `TYPE_TO_STARS` from `cards.py`. -/
def TYPE_TO_STARS : List (String × String × String) :=
  [ ("Dragon",       "Marte",   "Luna"),
    ("Spellcaster",  "Mercurio","Venus"),
    ("Warrior",      "Urano",   "Sol"),
    ("Beast",        "Jupiter", "Saturno"),
    ("Beast-Warrior","Jupiter", "Urano"),
    ("Winged-Beast", "Saturno", "Jupiter"),
    ("Fiend",        "Luna",    "Venus"),
    ("Zombie",       "Luna",    "Pluton"),
    ("Machine",      "Pluton",  "Urano"),
    ("Aqua",         "Neptuno", "Luna"),
    ("Fish",         "Neptuno", "Saturno"),
    ("Sea-Serpent",  "Neptuno", "Marte"),
    ("Reptile",      "Urano",   "Neptuno"),
    ("Pyro",         "Marte",   "Sol"),
    ("Thunder",      "Pluton",  "Saturno"),
    ("Rock",         "Urano",   "Marte"),
    ("Plant",        "Jupiter", "Sol"),
    ("Insect",       "Jupiter", "Luna"),
    ("Fairy",        "Sol",     "Venus"),
    ("Dinosaur",     "Urano",   "Marte") ]

/-- Lookup in a `(key, (a, b))` table, as Python `dict` access. -/
def tableLookup (tbl : List (String × String × String)) (key : String) :
    Option (String × String) :=
  (tbl.find? (·.1 == key)).map (·.2)

/-- `calculate_star_bonus` from `cards.py`: +500 if the attacker's star is
strong against the defender's, -500 if weak against it, else 0; stars not in
the table give 0. -/
def calculate_star_bonus (attacker_star defender_star : String) : ℤ :=
  match gsLookup attacker_star with
  | none => 0
  | some (strong, weak) =>
      if strong == defender_star then 500
      else if weak == defender_star then -500
      else 0

/-- `Card._assign_guardian_stars` from `cards.py`: the first star comes from
the attribute table (default "Urano"), the second from the type table
(default "Jupiter"); if they coincide, the second is replaced by the
alternate attribute star. -/
def assign_guardian_stars (attr card_type : String) : String × String :=
  let star1 :=
    match tableLookup ATTRIBUTE_TO_STARS attr with
    | some p => p.1
    | none => "Urano"
  let star2 :=
    match tableLookup TYPE_TO_STARS card_type with
    | some p => p.2
    | none => "Jupiter"
  if star1 == star2 then
    (star1, ((tableLookup ATTRIBUTE_TO_STARS attr).getD ("Urano", "Jupiter")).2)
  else (star1, star2)

/-- A monster card (`Card` in `cards.py`): catalog stats plus per-instance
state (guardian stars, selected star, battle position). -/
structure Card where
  id : ℤ
  name : String
  card_type : String
  atk : ℤ
  defense : ℤ
  attr : String
  level : ℤ
  star1 : String
  star2 : String
  selected_star : String
  position : String
deriving DecidableEq, Repr

/-- The `Card.__init__` constructor: assigns guardian stars from attribute and
type, selects star 1 and position "ATK" by default. -/
def mkCard (id : ℤ) (name card_type : String) (atk defense : ℤ)
    (attr : String) (level : ℤ) : Card :=
  let stars := assign_guardian_stars attr card_type
  { id := id, name := name, card_type := card_type, atk := atk,
    defense := defense, attr := attr, level := level,
    star1 := stars.1, star2 := stars.2,
    selected_star := stars.1, position := "ATK" }

/-- `Card.get_battle_value`: ATK when in position "ATK", otherwise DEF. -/
def Card.get_battle_value (c : Card) : ℤ :=
  if c.position == "ATK" then c.atk else c.defense

/-- `Card.set_position`. -/
def Card.set_position (c : Card) (position : String) : Card :=
  { c with position := position }

/-- `Card.select_star`: star 1 if `star_num == 1`, else star 2. -/
def Card.select_star (c : Card) (star_num : ℕ) : Card :=
  { c with selected_star := if star_num == 1 then c.star1 else c.star2 }

/-- `Card.copy`: constructs a new card from the catalog fields, then overrides
the stars, the selected star and the position with the originals. -/
def Card.copyFields (c : Card) : Card :=
  { mkCard c.id c.name c.card_type c.atk c.defense c.attr c.level with
    star1 := c.star1, star2 := c.star2,
    selected_star := c.selected_star, position := c.position }

/-- `Card.copy` preserves every field. -/
theorem Card.copyFields_eq (c : Card) : c.copyFields = c := by
  cases c; rfl

/-- A fusion recipe (`Fusion` in `cards.py`). -/
structure Fusion where
  material1 : String
  material2 : String
  result_name : String
  result_atk : ℤ
  result_def : ℤ
  result_attr : String
  result_type : String
deriving DecidableEq, Repr

/-- Whether a recipe matches two card names in either order,
case-insensitively, as in `check_fusion`. -/
def fusionMatches (f : Fusion) (card1_name card2_name : String) : Bool :=
  (f.material1.toLower == card1_name.toLower &&
   f.material2.toLower == card2_name.toLower) ||
  (f.material1.toLower == card2_name.toLower &&
   f.material2.toLower == card1_name.toLower)

/-- The result card produced by `check_fusion` for the recipe at index `idx`
of the fusion table: a fresh `Card` with id `9000 + idx` and level 7. -/
def fusionResultCard (idx : ℕ) (f : Fusion) : Card :=
  mkCard (9000 + (idx : ℤ)) f.result_name f.result_type f.result_atk
    f.result_def f.result_attr 7

/-- Helper for `check_fusion`: scan the table keeping the running index. -/
def checkFusionFrom (idx : ℕ) : List Fusion → String → String → Option Card
  | [], _, _ => none
  | f :: rest, n1, n2 =>
      if fusionMatches f n1 n2 then some (fusionResultCard idx f)
      else checkFusionFrom (idx + 1) rest n1 n2

/-- `check_fusion` from `cards.py`: first matching recipe wins; the result's
id records the recipe's index in the table. -/
def check_fusion (FS : List Fusion) (card1_name card2_name : String) :
    Option Card :=
  checkFusionFrom 0 FS card1_name card2_name

/-- `check_fusion_by_cards` from `cards.py`. -/
def check_fusion_by_cards (FS : List Fusion) (card1 card2 : Card) :
    Option Card :=
  check_fusion FS card1.name card2.name

/-- `get_possible_fusions_for_hand` from `cards.py`: every ordered pair
`i < j` of hand indices whose cards match a recipe, with the result. -/
def get_possible_fusions_for_hand (FS : List Fusion) (hand : List Card) :
    List (ℕ × ℕ × Card) :=
  ((List.range hand.length).flatMap fun i =>
    ((List.range hand.length).filter (fun j => i < j)).filterMap fun j =>
      match hand[i]?, hand[j]? with
      | some ci, some cj =>
          match check_fusion_by_cards FS ci cj with
          | some r => some (i, j, r)
          | none => none
      | _, _ => none)

/-- A player (`Player` in `game_state.py`): life points, draw pile, hand,
single battlefield slot, graveyard, and the single-slot sacrifice record
used by undo. -/
structure Player where
  name : String
  is_ai : Bool
  life_points : ℤ
  deck : List Card
  hand : List Card
  field : Option Card
  graveyard : List Card
  last_sacrificed_card : Option Card
deriving DecidableEq, Repr

/-- `Player.__init__`: life 8000, empty piles, no battlefield card. -/
def mkPlayer (name : String) (is_ai : Bool) : Player :=
  { name := name, is_ai := is_ai, life_points := 8000, deck := [], hand := [],
    field := none, graveyard := [], last_sacrificed_card := none }

/-- `Player.draw_card`: move the front deck card to the hand when the deck is
non-empty and the hand holds fewer than 5 cards; otherwise a no-op returning
`none`. -/
def Player.draw_card (p : Player) : Option Card × Player :=
  match p.deck with
  | [] => (none, p)
  | card :: rest =>
      if p.hand.length < 5 then
        (some card, { p with deck := rest, hand := p.hand ++ [card] })
      else (none, p)

/-- `Player.play_card`: validates the hand index; sends any current
battlefield card to the graveyard (recording it as the last sacrifice);
removes the chosen hand card, sets its position and star, and puts it on
the field.  Returns `false` and leaves the player unchanged on a bad index. -/
def Player.play_card (p : Player) (hand_index : ℕ) (position : String)
    (star_num : ℕ) : Bool × Player :=
  if h : hand_index < p.hand.length then
    let p1 := { p with last_sacrificed_card := none }
    let p2 :=
      match p1.field with
      | some f =>
          { p1 with graveyard := p1.graveyard ++ [f],
                    last_sacrificed_card := some f }
      | none => p1
    let card := ((p.hand.get ⟨hand_index, h⟩).set_position position).select_star star_num
    (true, { p2 with hand := p2.hand.eraseIdx hand_index, field := some card })
  else (false, p)

/-- `Player.undo_play_card`: the battlefield card returns to the end of the
hand; if a sacrifice was recorded and is still on top of the graveyard it is
popped back onto the field; the sacrifice record is cleared. -/
def Player.undo_play_card (p : Player) : Bool × Player :=
  match p.field with
  | none => (false, p)
  | some f =>
      let p1 := { p with hand := p.hand ++ [f], field := none }
      match p1.last_sacrificed_card with
      | none => (true, p1)
      | some sac =>
          match p1.graveyard.getLast? with
          | some g =>
              if g = sac then
                (true, { p1 with field := some g,
                                 graveyard := p1.graveyard.dropLast,
                                 last_sacrificed_card := none })
              else (true, { p1 with last_sacrificed_card := none })
          | none => (true, { p1 with last_sacrificed_card := none })

/-- `Player.can_fuse`: `none` when an index is out of range or the indices
coincide, otherwise the fusion-table lookup for the two hand cards. -/
def Player.can_fuse (FS : List Fusion) (p : Player) (idx1 idx2 : ℕ) :
    Option Card :=
  if h : idx1 < p.hand.length ∧ idx2 < p.hand.length ∧ idx1 ≠ idx2 then
    check_fusion_by_cards FS (p.hand.get ⟨idx1, h.1⟩) (p.hand.get ⟨idx2, h.2.1⟩)
  else none

/-- `Player.fuse_cards`: when `can_fuse` succeeds, removes the two source
cards (higher index first), appends them to the graveyard in that order, and
appends the fusion result to the hand. -/
def Player.fuse_cards (FS : List Fusion) (p : Player) (idx1 idx2 : ℕ) :
    Option Card × Player :=
  match p.can_fuse FS idx1 idx2 with
  | none => (none, p)
  | some result =>
      let hi := if idx1 > idx2 then idx1 else idx2
      let lo := if idx1 > idx2 then idx2 else idx1
      match p.hand[hi]?, (p.hand.eraseIdx hi)[lo]? with
      | some chi, some clo =>
          (some result,
            { p with hand := ((p.hand.eraseIdx hi).eraseIdx lo) ++ [result],
                     graveyard := p.graveyard ++ [chi, clo] })
      | _, _ => (none, p)

/-- `Player.get_possible_fusions`. -/
def Player.get_possible_fusions (FS : List Fusion) (p : Player) :
    List (ℕ × ℕ × Card) :=
  get_possible_fusions_for_hand FS p.hand

/-- `Player.copy`: a deep copy — every card in deck, hand, field and
graveyard is copied; the sacrifice record is not carried over (the fresh
player's is `None`). -/
def Player.copy (p : Player) : Player :=
  { mkPlayer p.name p.is_ai with
    life_points := p.life_points,
    deck := p.deck.map Card.copyFields,
    hand := p.hand.map Card.copyFields,
    field := p.field.map Card.copyFields,
    graveyard := p.graveyard.map Card.copyFields }

/-- `Player.copy` preserves everything except the sacrifice record. -/
theorem Player.copy_eq (p : Player) :
    p.copy = { p with last_sacrificed_card := none } := by
  have h1 : ∀ l : List Card, l.map Card.copyFields = l := by
    intro l
    simp [funext Card.copyFields_eq]
  have h2 : ∀ o : Option Card, o.map Card.copyFields = o := by
    intro o
    simp [funext Card.copyFields_eq]
  simp [Player.copy, mkPlayer, h1, h2]

/-- A battle-log record: the `result` dictionary built by `resolve_battle`. -/
structure BattleResult where
  human_card : String
  ai_card : String
  attacker : String
  attacker_value : ℤ
  defender_value : ℤ
  attacker_bonus : ℤ
  defender_bonus : ℤ
  human_value : ℤ
  ai_value : ℤ
  human_star : String
  ai_star : String
  human_position : String
  ai_position : String
  defender_position : String
  damage : ℤ
  winner : Option String
  description : String
deriving DecidableEq, Repr

/-- The full match state (`GameState` in `game_state.py`).  The Python
`current_player` and `winner` player references are modelled by which side
they point to (`is_ai`). -/
structure GameState where
  deck_size : ℕ
  human : Player
  ai : Player
  current_is_ai : Bool
  turn_number : ℕ
  game_over : Bool
  winner : Option Bool
  battle_log : List BattleResult
  last_battle_result : Option BattleResult
  phase : String
deriving DecidableEq, Repr

/-- `GameState.__init__`: deck size clamped to [10, 40], human starts,
turn 1, phase DRAW. -/
def mkGameState (deck_size : ℕ) : GameState :=
  { deck_size := max 10 (min deck_size 40),
    human := mkPlayer "Jugador" false,
    ai := mkPlayer "IA" true,
    current_is_ai := false, turn_number := 1, game_over := false,
    winner := none, battle_log := [], last_battle_result := none,
    phase := "DRAW" }

/-- `n` successive `draw_card` calls (the initial-draw loop of
`setup_game`). -/
def drawN : ℕ → Player → Player
  | 0, p => p
  | n + 1, p => drawN n (p.draw_card).2

/-- `GameState.setup_game`, with the shuffle modelled by taking the two dealt
deck orders as parameters: assign the decks, draw 5 cards each, enter the
MAIN phase. -/
def GameState.setup_game (deck_size : ℕ) (human_deck ai_deck : List Card) :
    GameState :=
  let s := mkGameState deck_size
  let s := { s with human := { s.human with deck := human_deck },
                    ai := { s.ai with deck := ai_deck } }
  { s with human := drawN 5 s.human, ai := drawN 5 s.ai, phase := "MAIN" }

/-- `GameState.get_battle_value`: position-dependent base value plus the
guardian-star bonus against the opponent's selected star (when present). -/
def get_battle_value (card : Card) (opponent_card : Option Card) : ℤ :=
  let base_value := card.get_battle_value
  match opponent_card with
  | some o => base_value + calculate_star_bonus card.selected_star o.selected_star
  | none => base_value

/-- `GameState.check_game_over`: life-point victory is checked first (human
first, then AI), then deck-out (no deck, hand or field card). -/
def GameState.check_game_over (s : GameState) : GameState :=
  if s.human.life_points ≤ 0 then
    { s with game_over := true, winner := some true }
  else if s.ai.life_points ≤ 0 then
    { s with game_over := true, winner := some false }
  else
    let human_has_cards :=
      s.human.deck.length > 0 ∨ s.human.hand.length > 0 ∨ s.human.field.isSome
    let ai_has_cards :=
      s.ai.deck.length > 0 ∨ s.ai.hand.length > 0 ∨ s.ai.field.isSome
    if ¬human_has_cards then { s with game_over := true, winner := some true }
    else if ¬ai_has_cards then { s with game_over := true, winner := some false }
    else s

/-- `GameState.resolve_battle`: the battle state machine.  A no-op returning
`none` when either field is empty; otherwise computes both battle values,
applies damage/destruction per the rule table, appends the result record, and
re-runs the terminal check. -/
def GameState.resolve_battle (s : GameState) (attacker : String) :
    Option BattleResult × GameState :=
  match s.human.field, s.ai.field with
  | some human_card, some ai_card =>
      let attackerIsHuman := attacker == "human"
      let attacker_card := if attackerIsHuman then human_card else ai_card
      let defender_card := if attackerIsHuman then ai_card else human_card
      let attacker_base := attacker_card.atk
      let attacker_star_bonus :=
        calculate_star_bonus attacker_card.selected_star defender_card.selected_star
      let attacker_value := attacker_base + attacker_star_bonus
      let defender_star_bonus :=
        calculate_star_bonus defender_card.selected_star attacker_card.selected_star
      let defender_base :=
        if defender_card.position == "ATK" then defender_card.atk
        else defender_card.defense
      let defender_value := defender_base + defender_star_bonus
      let base : BattleResult :=
        { human_card := human_card.name, ai_card := ai_card.name,
          attacker := attacker,
          attacker_value := attacker_value, defender_value := defender_value,
          attacker_bonus := attacker_star_bonus,
          defender_bonus := defender_star_bonus,
          human_value := if attackerIsHuman then attacker_value else defender_value,
          ai_value := if attackerIsHuman then defender_value else attacker_value,
          human_star := human_card.selected_star,
          ai_star := ai_card.selected_star,
          human_position := human_card.position,
          ai_position := ai_card.position,
          defender_position := defender_card.position,
          damage := 0, winner := none, description := "" }
      let (result, s1) : BattleResult × GameState :=
        if attacker_value > defender_value then
          -- attacker wins: defender's card always goes to the graveyard
          let damage :=
            if defender_card.position == "ATK" then attacker_value - defender_value
            else 0
          let desc :=
            if defender_card.position == "ATK" then
              if attackerIsHuman then
                "¡Ganaste! Infliges " ++ toString (attacker_value - defender_value) ++ " de daño."
              else
                "¡Perdiste! Recibes " ++ toString (attacker_value - defender_value) ++ " de daño."
            else
              if attackerIsHuman then "¡Ganaste! La carta enemiga en DEF fue destruida."
              else "¡Perdiste! Tu carta en DEF fue destruida."
          let r := { base with damage := damage, winner := some attacker,
                               description := desc }
          let s' :=
            if attackerIsHuman then
              { s with ai :=
                { s.ai with
                  life_points := s.ai.life_points -
                    (if defender_card.position == "ATK" then r.damage else 0),
                  graveyard := s.ai.graveyard ++ [ai_card],
                  field := none } }
            else
              { s with human :=
                { s.human with
                  life_points := s.human.life_points -
                    (if defender_card.position == "ATK" then r.damage else 0),
                  graveyard := s.human.graveyard ++ [human_card],
                  field := none } }
          (r, s')
        else if defender_value > attacker_value then
          -- defender wins: the attacker's owner takes the difference as damage
          let damage := defender_value - attacker_value
          let winnerStr := if attackerIsHuman then "ai" else "human"
          if defender_card.position == "ATK" then
            -- attacker's card is destroyed
            let desc :=
              if attackerIsHuman then
                "¡Perdiste! Recibes " ++ toString damage ++ " de daño."
              else
                "¡Ganaste! La IA recibe " ++ toString damage ++ " de daño."
            let r := { base with damage := damage, winner := some winnerStr,
                                 description := desc }
            let s' :=
              if attackerIsHuman then
                { s with human :=
                  { s.human with
                    life_points := s.human.life_points - damage,
                    graveyard := s.human.graveyard ++ [human_card],
                    field := none } }
              else
                { s with ai :=
                  { s.ai with
                    life_points := s.ai.life_points - damage,
                    graveyard := s.ai.graveyard ++ [ai_card],
                    field := none } }
            (r, s')
          else
            -- rebound: the attacker takes damage, neither card is destroyed
            let desc :=
              if attackerIsHuman then
                "¡Rebote! Tu ATK es menor, recibes " ++ toString damage ++ " de daño."
              else
                "¡Defendiste! La IA recibe " ++ toString damage ++ " de daño de rebote."
            let r := { base with damage := damage, winner := some winnerStr,
                                 description := desc }
            let s' :=
              if attackerIsHuman then
                { s with human :=
                  { s.human with life_points := s.human.life_points - damage } }
              else
                { s with ai :=
                  { s.ai with life_points := s.ai.life_points - damage } }
            (r, s')
        else
          -- tie
          if defender_card.position == "ATK" then
            let r := { base with
                       winner := some "tie",
                       description := "¡Empate! Ambas cartas fueron destruidas." }
            let s' :=
              { s with
                human := { s.human with
                  graveyard := s.human.graveyard ++ [human_card], field := none },
                ai := { s.ai with
                  graveyard := s.ai.graveyard ++ [ai_card], field := none } }
            (r, s')
          else
            let r := { base with
                       winner := some "tie",
                       description := "¡Empate! ATK = DEF, nada sucede." }
            (r, s)
      let s2 := { s1 with battle_log := s1.battle_log ++ [result],
                          last_battle_result := some result }
      (some result, s2.check_game_over)
  | _, _ => (none, s)

/-- `GameState.next_turn`: toggle the current player (incrementing the turn
counter when control returns to the human), draw a card for the new current
player, and enter the MAIN phase. -/
def GameState.next_turn (s : GameState) : GameState :=
  let s :=
    if s.current_is_ai then
      { s with current_is_ai := false, turn_number := s.turn_number + 1 }
    else
      { s with current_is_ai := true }
  let s :=
    if s.current_is_ai then { s with ai := (s.ai.draw_card).2 }
    else { s with human := (s.human.draw_card).2 }
  { s with phase := "MAIN" }

/-- `GameState.copy`: a deep copy built through `GameState.__init__`; the
battle log and last battle result start fresh, both players are deep-copied,
and the current-player and winner references are re-pointed by side. -/
def GameState.copy (s : GameState) : GameState :=
  { mkGameState s.deck_size with
    turn_number := s.turn_number, game_over := s.game_over, phase := s.phase,
    human := s.human.copy, ai := s.ai.copy,
    current_is_ai := s.current_is_ai,
    winner := s.winner }

/-- A legal action (`get_possible_actions` dictionaries). -/
inductive Action where
  | play (index : ℕ) (position : String) (star : ℕ) (card_name : String)
  | fuse (idx1 idx2 : ℕ) (result_name : String)
  | pass
deriving DecidableEq, Repr

/-- The play actions of `GameState.get_possible_actions`: four variants per
hand card, in order ATK/star1, ATK/star2, DEF/star1, DEF/star2. -/
def playActions (player : Player) : List Action :=
  player.hand.enum.flatMap fun (i, card) =>
    [Action.play i "ATK" 1 card.name,
     Action.play i "ATK" 2 card.name,
     Action.play i "DEF" 1 card.name,
     Action.play i "DEF" 2 card.name]

/-- The fuse actions of `GameState.get_possible_actions`: one per possible
fusion pair. -/
def fuseActions (FS : List Fusion) (player : Player) : List Action :=
  (player.get_possible_fusions FS).map fun (idx1, idx2, result) =>
    Action.fuse idx1 idx2 result.name

/-- `GameState.get_possible_actions`: the play actions, then the fuse
actions, a pass when the list would be empty, and a pass when the player
already holds the field. -/
def get_possible_actions (FS : List Fusion) (player : Player) : List Action :=
  let actions := playActions player
  let actions := actions ++ fuseActions FS player
  let actions := if actions.isEmpty then actions ++ [Action.pass] else actions
  if player.field.isSome then actions ++ [Action.pass] else actions

/-- `GameState.apply_action`, with the Python player reference replaced by
the side it points to: dispatches to `play_card` / `fuse_cards` / no-op. -/
def GameState.apply_action (FS : List Fusion) (s : GameState)
    (player_is_ai : Bool) (action : Action) : GameState :=
  match action with
  | .play index position star _ =>
      if player_is_ai then
        { s with ai := (s.ai.play_card index position star).2 }
      else
        { s with human := (s.human.play_card index position star).2 }
  | .fuse idx1 idx2 _ =>
      if player_is_ai then
        { s with ai := (s.ai.fuse_cards FS idx1 idx2).2 }
      else
        { s with human := (s.human.fuse_cards FS idx1 idx2).2 }
  | .pass => s

/-- Python `max(xs, default=d)`. -/
def maxListD (l : List ℤ) (d : ℤ) : ℤ :=
  match l with
  | [] => d
  | x :: xs => xs.foldl max x

/-- The unordered hand pairs `(i, j)` with `i < j`, by card, in the order the
nested `for` loops of `_count_fusion_potential` visit them. -/
def handPairs : List Card → List (Card × Card)
  | [] => []
  | c :: rest => rest.map (fun d => (c, d)) ++ handPairs rest

/-- `MinimaxAI._count_fusion_potential`: over every fusable hand pair whose
result strictly improves on the better original ATK, accumulate
`1 + improvement / 500`. -/
def count_fusion_potential (FS : List Fusion) (hand : List Card) : ℚ :=
  if hand.length < 2 then 0
  else
    ((handPairs hand).map fun (ci, cj) =>
      match check_fusion_by_cards FS ci cj with
      | some result =>
          let original_best := max ci.atk cj.atk
          let improvement := result.atk - original_best
          if improvement > 0 then 1 + (improvement : ℚ) / 500 else 0
      | none => 0).sum

/-- `MinimaxAI.evaluate`: ±100000 at decided terminal states (0 on a tie),
otherwise the seven-factor weighted heuristic.  Python float weights are
embedded as the exact rationals they denote. -/
def evaluate (FS : List Fusion) (state : GameState) : ℚ :=
  if state.game_over then
    match state.winner with
    | some true => 100000
    | some false => -100000
    | none => 0
  else
    -- factor 1: life-point difference, weight 1.5
    let life_diff : ℤ := state.ai.life_points - state.human.life_points
    let score : ℚ := (life_diff : ℚ) * (3 / 2)
    -- factor 2: field control
    let score :=
      match state.ai.field, state.human.field with
      | some ai_field, none => score + (ai_field.atk : ℚ) * (3 / 10)
      | none, some human_field => score - (human_field.atk : ℚ) * (3 / 10)
      | some ai_field, some human_field =>
          let ai_value := get_battle_value ai_field (some human_field)
          let human_value := get_battle_value human_field (some ai_field)
          if ai_value > human_value then
            let score := score + ((ai_value - human_value : ℤ) : ℚ) * (1 / 2)
            if human_field.position == "ATK" then score + 200 else score
          else
            let score := score - ((human_value - ai_value : ℤ) : ℚ) * (1 / 2)
            if ai_field.position == "ATK" then score - 200 else score
      | none, none => score
    -- factor 3: hand quality
    let ai_hand_power : ℤ := (state.ai.hand.map fun c => max c.atk c.defense).sum
    let human_hand_power : ℤ := (state.human.hand.map fun c => max c.atk c.defense).sum
    let score := score + ((ai_hand_power - human_hand_power : ℤ) : ℚ) * (1 / 10)
    let ai_best := maxListD (state.ai.hand.map (·.atk)) 0
    let human_best := maxListD (state.human.hand.map (·.atk)) 0
    let score := score + ((ai_best - human_best : ℤ) : ℚ) * (3 / 20)
    -- factor 4: resource counts
    let hand_diff : ℤ := (state.ai.hand.length : ℤ) - state.human.hand.length
    let deck_diff : ℤ := (state.ai.deck.length : ℤ) - state.human.deck.length
    let score := score + (hand_diff : ℚ) * 75 + (deck_diff : ℚ) * 25
    -- factor 5: fusion potential
    let ai_fusions := count_fusion_potential FS state.ai.hand
    let human_fusions := count_fusion_potential FS state.human.hand
    let score := score + (ai_fusions - human_fusions) * 150
    -- factor 6: upcoming deck cards (perfect information)
    let score :=
      match state.ai.deck with
      | next_ai :: _ => score + ((max next_ai.atk next_ai.defense : ℤ) : ℚ) * (1 / 20)
      | [] => score
    let score :=
      match state.human.deck with
      | next_human :: _ => score - ((max next_human.atk next_human.defense : ℤ) : ℚ) * (1 / 20)
      | [] => score
    -- factor 7: low-life urgency
    let score :=
      if state.ai.life_points < 2000 then
        score - ((2000 - state.ai.life_points : ℤ) : ℚ) * (1 / 2)
      else score
    let score :=
      if state.human.life_points < 2000 then
        score + ((2000 - state.human.life_points : ℤ) : ℚ) * (1 / 2)
      else score
    score

/-- Search values: rationals extended with `-math.inf` (`⊥`) and
`math.inf`. -/
abbrev QI := WithBot (WithTop ℚ)

/-- Embed a finite evaluation score into the search-value order. -/
def toQI (q : ℚ) : QI := ((q : WithTop ℚ) : QI)

/-- Python `math.inf`. -/
def posInf : QI := ((⊤ : WithTop ℚ) : QI)

/-- One simulated step of the `for action in actions` loops of
`MinimaxAI.minimax`: deep-copy the state, apply the action for the moving
side, and resolve a battle (mover attacking) when both fields are then
occupied. -/
def childState (FS : List Fusion) (state : GameState) (mover_is_ai : Bool)
    (action : Action) : GameState :=
  let new_state := (state.copy).apply_action FS mover_is_ai action
  if new_state.human.field.isSome && new_state.ai.field.isSome then
    (new_state.resolve_battle (if mover_is_ai then "ai" else "human")).2
  else new_state

mutual

/-- `MinimaxAI.minimax` (alpha-beta pruned), with an explicit fuel parameter
added to express the recursion in Lean: `none` means the fuel ran out, and
the termination theorems show sufficient fuel is never exhausted.  Fuse
actions recurse at the same depth and the same role; play/pass actions
recurse one level deeper with the roles swapped. -/
def minimaxAB (FS : List Fusion) : ℕ → GameState → ℕ → QI → QI → Bool →
    Option (QI × Option Action)
  | 0, _, _, _, _, _ => none
  | fuel + 1, state, depth, alpha, beta, is_maximizing =>
      if depth = 0 ∨ state.game_over then
        some (toQI (evaluate FS state), none)
      else
        let player := if is_maximizing then state.ai else state.human
        match get_possible_actions FS player with
        | [] => some (toQI (evaluate FS state), none)
        | a0 :: rest =>
            if is_maximizing then
              abMaxLoop FS fuel state depth (a0 :: rest) alpha beta ⊥ a0
            else
              abMinLoop FS fuel state depth (a0 :: rest) alpha beta posInf a0
termination_by fuel _ _ _ _ _ => (fuel, 0)

/-- The maximizing `for action in actions` loop of `MinimaxAI.minimax`:
copy, apply, battle (AI attacks), recurse, keep the strictly-best action,
raise `alpha`, and stop as soon as `beta ≤ alpha`. -/
def abMaxLoop (FS : List Fusion) : ℕ → GameState → ℕ → List Action → QI →
    QI → QI → Action → Option (QI × Option Action)
  | _, _, _, [], _, _, max_eval, best_action => some (max_eval, some best_action)
  | fuel, state, depth, action :: rest, alpha, beta, max_eval, best_action =>
      let new_state := childState FS state true action
      let sub :=
        match action with
        | .fuse _ _ _ => minimaxAB FS fuel new_state depth alpha beta true
        | _ => minimaxAB FS fuel new_state (depth - 1) alpha beta false
      match sub with
      | none => none
      | some (eval_score, _) =>
          let max_eval' := if eval_score > max_eval then eval_score else max_eval
          let best' := if eval_score > max_eval then action else best_action
          let alpha' := max alpha eval_score
          if beta ≤ alpha' then some (max_eval', some best')
          else abMaxLoop FS fuel state depth rest alpha' beta max_eval' best'
termination_by fuel _ _ acts _ _ _ _ => (fuel, acts.length + 1)

/-- The minimizing loop of `MinimaxAI.minimax`: the human attacks, `beta`
falls, pruning once `beta ≤ alpha`. -/
def abMinLoop (FS : List Fusion) : ℕ → GameState → ℕ → List Action → QI →
    QI → QI → Action → Option (QI × Option Action)
  | _, _, _, [], _, _, min_eval, best_action => some (min_eval, some best_action)
  | fuel, state, depth, action :: rest, alpha, beta, min_eval, best_action =>
      let new_state := childState FS state false action
      let sub :=
        match action with
        | .fuse _ _ _ => minimaxAB FS fuel new_state depth alpha beta false
        | _ => minimaxAB FS fuel new_state (depth - 1) alpha beta true
      match sub with
      | none => none
      | some (eval_score, _) =>
          let min_eval' := if eval_score < min_eval then eval_score else min_eval
          let best' := if eval_score < min_eval then action else best_action
          let beta' := min beta eval_score
          if beta' ≤ alpha then some (min_eval', some best')
          else abMinLoop FS fuel state depth rest alpha beta' min_eval' best'
termination_by fuel _ _ acts _ _ _ _ => (fuel, acts.length + 1)

end

mutual

/-- Specification-side definition (from the spec's alpha-beta-equivalence
property): the unpruned exhaustive minimax over the same game tree, with the
same left-to-right enumeration and the same strict-improvement (first-found)
tie-breaking, but no alpha-beta window at all. -/
def minimaxPlain (FS : List Fusion) : ℕ → GameState → ℕ → Bool →
    Option (QI × Option Action)
  | 0, _, _, _ => none
  | fuel + 1, state, depth, is_maximizing =>
      if depth = 0 ∨ state.game_over then
        some (toQI (evaluate FS state), none)
      else
        let player := if is_maximizing then state.ai else state.human
        match get_possible_actions FS player with
        | [] => some (toQI (evaluate FS state), none)
        | a0 :: rest =>
            if is_maximizing then
              plainMaxLoop FS fuel state depth (a0 :: rest) ⊥ a0
            else
              plainMinLoop FS fuel state depth (a0 :: rest) posInf a0
termination_by fuel _ _ _ => (fuel, 0)

/-- Unpruned maximizing loop, mirror of `abMaxLoop` without the window. -/
def plainMaxLoop (FS : List Fusion) : ℕ → GameState → ℕ → List Action →
    QI → Action → Option (QI × Option Action)
  | _, _, _, [], max_eval, best_action => some (max_eval, some best_action)
  | fuel, state, depth, action :: rest, max_eval, best_action =>
      let new_state := childState FS state true action
      let sub :=
        match action with
        | .fuse _ _ _ => minimaxPlain FS fuel new_state depth true
        | _ => minimaxPlain FS fuel new_state (depth - 1) false
      match sub with
      | none => none
      | some (eval_score, _) =>
          let max_eval' := if eval_score > max_eval then eval_score else max_eval
          let best' := if eval_score > max_eval then action else best_action
          plainMaxLoop FS fuel state depth rest max_eval' best'
termination_by fuel _ _ acts _ _ => (fuel, acts.length + 1)

/-- Unpruned minimizing loop, mirror of `abMinLoop` without the window. -/
def plainMinLoop (FS : List Fusion) : ℕ → GameState → ℕ → List Action →
    QI → Action → Option (QI × Option Action)
  | _, _, _, [], min_eval, best_action => some (min_eval, some best_action)
  | fuel, state, depth, action :: rest, min_eval, best_action =>
      let new_state := childState FS state false action
      let sub :=
        match action with
        | .fuse _ _ _ => minimaxPlain FS fuel new_state depth false
        | _ => minimaxPlain FS fuel new_state (depth - 1) true
      match sub with
      | none => none
      | some (eval_score, _) =>
          let min_eval' := if eval_score < min_eval then eval_score else min_eval
          let best' := if eval_score < min_eval then action else best_action
          plainMinLoop FS fuel state depth rest min_eval' best'
termination_by fuel _ _ acts _ _ => (fuel, acts.length + 1)

end

/-! ## Properties of the guardian-star ruleset -/

/-- `n`-fold iteration of the strong-against relation. -/
def strongIter : ℕ → String → Option String
  | 0, s => some s
  | n + 1, s => (strongOf s).bind (strongIter n)

/-- C2 (counterexample): the strong-against orbit of "Sol" closes after 4
steps, not 5 and not 10 — so the strong edges do not form two 5-cycles, nor
a single 10-cycle. -/
theorem guardian_star_cycle_counterexample :
    strongIter 4 "Sol" = some "Sol" ∧
    strongIter 5 "Sol" ≠ some "Sol" ∧
    strongIter 10 "Sol" ≠ some "Sol" := by decide

/-- C2 (amended): the 10-token table gives every token exactly one
strong-against and one weak-against token, both tokens of the table, the
weak relation is the inverse of the strong relation, and the strong edges
form two disjoint cycles grouped by elemental family — a 4-cycle on the
celestial bodies (Sol, Luna, Venus, Mercurio) and a 6-cycle on the planets
(Marte, Jupiter, Saturno, Urano, Pluton, Neptuno). -/
theorem guardian_star_structure :
    (starNames.length = 10 ∧ starNames.Nodup) ∧
    (∀ s ∈ starNames, (GUARDIAN_STARS.filter (·.1 == s)).length = 1) ∧
    (∀ a ∈ starNames, ∀ b ∈ starNames, (strongOf a = some b ↔ weakOf b = some a)) ∧
    (strongOf "Sol" = some "Luna" ∧ strongOf "Luna" = some "Venus" ∧
     strongOf "Venus" = some "Mercurio" ∧ strongOf "Mercurio" = some "Sol") ∧
    (strongOf "Marte" = some "Jupiter" ∧ strongOf "Jupiter" = some "Saturno" ∧
     strongOf "Saturno" = some "Urano" ∧ strongOf "Urano" = some "Pluton" ∧
     strongOf "Pluton" = some "Neptuno" ∧ strongOf "Neptuno" = some "Marte") ∧
    starNames = ["Sol", "Luna", "Venus", "Mercurio"] ++
      ["Marte", "Jupiter", "Saturno", "Urano", "Pluton", "Neptuno"] := by
  decide

/-- C7: over the ten defined guardian stars, `calculate_star_bonus X Y` is
+500 exactly when X strongly dominates Y, -500 exactly when Y strongly
dominates X, 0 otherwise; and when either side dominates, swapping the
arguments changes the result (non-symmetry). -/
theorem calculate_star_bonus_spec :
    ∀ X ∈ starNames, ∀ Y ∈ starNames,
      (calculate_star_bonus X Y = 500 ↔ strongOf X = some Y) ∧
      (calculate_star_bonus X Y = -500 ↔ strongOf Y = some X) ∧
      (calculate_star_bonus X Y = 0 ↔
        (strongOf X ≠ some Y ∧ strongOf Y ≠ some X)) ∧
      ((strongOf X = some Y ∨ strongOf Y = some X) →
        calculate_star_bonus X Y ≠ calculate_star_bonus Y X) := by
  decide

/-- C7 witness: the theorem applied to the concrete pair (Sol, Luna). -/
theorem calculate_star_bonus_spec_witness :
    calculate_star_bonus "Sol" "Luna" = 500 ∧
    calculate_star_bonus "Sol" "Luna" ≠ calculate_star_bonus "Luna" "Sol" := by
  have h := calculate_star_bonus_spec "Sol" (by decide) "Luna" (by decide)
  exact ⟨h.1.mpr (by decide), h.2.2.2 (Or.inl (by decide))⟩

/-! ## Terminal check (C8) -/

/-- C8: whenever either life total is ≤ 0, `check_game_over` ends the game;
a non-positive human total makes the AI the winner (`some true`), a
non-positive AI total with the human still alive makes the human the winner
(`some false`), and a simultaneous zero-out is resolved as an AI win because
the human total is checked first. -/
theorem check_game_over_life (s : GameState)
    (h : s.human.life_points ≤ 0 ∨ s.ai.life_points ≤ 0) :
    s.check_game_over.game_over = true ∧
    (s.human.life_points ≤ 0 → s.check_game_over.winner = some true) ∧
    (s.ai.life_points ≤ 0 ∧ 0 < s.human.life_points →
      s.check_game_over.winner = some false) ∧
    (s.human.life_points ≤ 0 ∧ s.ai.life_points ≤ 0 →
      s.check_game_over.winner = some true) := by
  unfold GameState.check_game_over
  rcases le_or_lt s.human.life_points 0 with hh | hh
  · rw [if_pos hh]
    refine ⟨rfl, fun _ => rfl, fun hx => absurd hh (by omega), fun _ => rfl⟩
  · rw [if_neg (by omega)]
    rcases h with h | h
    · omega
    · rw [if_pos h]
      exact ⟨rfl, fun hx => by omega, fun _ => rfl, fun hx => by omega⟩

/-- C8 witness: a state in which both players are at 0 life points. -/
theorem check_game_over_life_witness :
    let s : GameState :=
      { mkGameState 20 with
        human := { mkPlayer "Jugador" false with life_points := 0 },
        ai := { mkPlayer "IA" true with life_points := 0 } }
    s.check_game_over.game_over = true ∧ s.check_game_over.winner = some true := by
  intro s
  have h := check_game_over_life s (Or.inl (by decide))
  exact ⟨h.1, h.2.2.2 ⟨by decide, by decide⟩⟩

/-! ## Undo (C9) -/

/-- C9: whenever the battlefield slot is occupied, `undo_play_card` returns
`True` and appends the battlefield card to the end of the hand with no check
of the 5-card hand bound; in particular a full 5-card hand with an occupied
field and no recorded sacrifice produces a 6-card hand. -/
theorem undo_play_card_overfills_hand (p : Player) (c : Card)
    (hf : p.field = some c) :
    (p.undo_play_card).1 = true ∧
    (p.undo_play_card).2.hand = p.hand ++ [c] ∧
    (p.last_sacrificed_card = none →
      (p.undo_play_card).2.field = none ∧
      (p.hand.length = 5 → (p.undo_play_card).2.hand.length = 6)) := by
  obtain ⟨nm, ia, lp, dk, hd, fd, gv, ls⟩ := p
  simp only at hf
  subst hf
  cases ls with
  | none =>
      refine ⟨rfl, rfl, fun _ => ⟨rfl, fun h5 => ?_⟩⟩
      simp [Player.undo_play_card, h5]
  | some sac =>
      refine ⟨?_, ?_, fun hn => by cases hn⟩ <;>
      · simp only [Player.undo_play_card]
        rcases hgl : gv.getLast? with _ | g
        · simp only [hgl]
        · simp only [hgl]
          split_ifs <;> rfl

/-- C9 witness: a player with a full hand of 5 cards and an occupied field;
undo yields 6 cards in hand. -/
theorem undo_play_card_overfills_hand_witness :
    let c : Card := mkCard 1 "A" "Dragon" 1800 1200 "Light" 4
    let p : Player :=
      { mkPlayer "Jugador" false with hand := [c, c, c, c, c], field := some c }
    (p.undo_play_card).1 = true ∧ (p.undo_play_card).2.hand.length = 6 := by
  intro c p
  have h := undo_play_card_overfills_hand p c rfl
  exact ⟨h.1, (h.2.2 rfl).2 rfl⟩

/-! ## Fusion index safety (C4) -/

/-- C4: for equal indices or any index at or beyond the hand length,
`can_fuse` returns `None` and `fuse_cards` returns `None` with the player —
hand, graveyard and battlefield slot — completely unmodified (both
operations are total functions: they cannot throw). -/
theorem fuse_invalid_index_safe (FS : List Fusion) (p : Player) (i j : ℕ)
    (h : i = j ∨ p.hand.length ≤ i ∨ p.hand.length ≤ j) :
    p.can_fuse FS i j = none ∧ p.fuse_cards FS i j = (none, p) := by
  have hc : p.can_fuse FS i j = none := by
    unfold Player.can_fuse
    rw [dif_neg]
    rintro ⟨h1, h2, h3⟩
    rcases h with h | h | h <;> omega
  refine ⟨hc, ?_⟩
  unfold Player.fuse_cards
  rw [hc]

/-- C4 witness: a 2-card hand probed with `i = j` and with an out-of-range
index. -/
theorem fuse_invalid_index_safe_witness :
    let c : Card := mkCard 1 "A" "Dragon" 1800 1200 "Light" 4
    let p : Player := { mkPlayer "Jugador" false with hand := [c, c] }
    p.can_fuse [] 1 1 = none ∧ p.fuse_cards [] 1 1 = (none, p) ∧
    p.can_fuse [] 0 2 = none ∧ p.fuse_cards [] 0 2 = (none, p) := by
  intro c p
  have h1 := fuse_invalid_index_safe [] p 1 1 (Or.inl rfl)
  have h2 := fuse_invalid_index_safe [] p 0 2 (Or.inr (Or.inr (by decide)))
  exact ⟨h1.1, h1.2, h2.1, h2.2⟩

/-! ## Battle resolution (C1) -/

/-- `check_game_over` only writes the game-over flag and the winner: the
human player is untouched. -/
theorem check_game_over_human (s : GameState) :
    s.check_game_over.human = s.human := by
  unfold GameState.check_game_over
  dsimp only
  split_ifs <;> rfl

/-- `check_game_over` leaves the AI player untouched. -/
theorem check_game_over_ai (s : GameState) :
    s.check_game_over.ai = s.ai := by
  unfold GameState.check_game_over
  dsimp only
  split_ifs <;> rfl

/-- C1: with both battlefield slots occupied, when the attacker's computed
battle value is strictly below the defender's and the defender's stance is
Defense, `resolve_battle` subtracts exactly the value difference from the
attacker's owner's life total, and both cards stay on their field slots. -/
theorem resolve_battle_rebound (s : GameState) (attacker : String)
    (hc ac : Card) (hH : s.human.field = some hc) (hA : s.ai.field = some ac)
    (atc dc : Card)
    (hatc : atc = if attacker == "human" then hc else ac)
    (hdc : dc = if attacker == "human" then ac else hc)
    (hpos : dc.position = "DEF")
    (hlt : atc.atk + calculate_star_bonus atc.selected_star dc.selected_star <
           dc.defense + calculate_star_bonus dc.selected_star atc.selected_star) :
    ((s.resolve_battle attacker).2.human.life_points =
       s.human.life_points -
         (if attacker == "human" then
            (dc.defense + calculate_star_bonus dc.selected_star atc.selected_star) -
              (atc.atk + calculate_star_bonus atc.selected_star dc.selected_star)
          else 0)) ∧
    ((s.resolve_battle attacker).2.ai.life_points =
       s.ai.life_points -
         (if attacker == "human" then 0
          else
            (dc.defense + calculate_star_bonus dc.selected_star atc.selected_star) -
              (atc.atk + calculate_star_bonus atc.selected_star dc.selected_star))) ∧
    (s.resolve_battle attacker).2.human.field = some hc ∧
    (s.resolve_battle attacker).2.ai.field = some ac := by
  have h1 : ¬(atc.atk + calculate_star_bonus atc.selected_star dc.selected_star >
      dc.defense + calculate_star_bonus dc.selected_star atc.selected_star) := by
    omega
  have h2 : dc.defense + calculate_star_bonus dc.selected_star atc.selected_star >
      atc.atk + calculate_star_bonus atc.selected_star dc.selected_star := hlt
  by_cases hs : (attacker == "human") = true
  · rw [if_pos hs] at hatc hdc
    subst hatc; subst hdc
    simp [GameState.resolve_battle, hH, hA, hs, hpos, h1, h2,
      check_game_over_human, check_game_over_ai]
  · rw [if_neg hs] at hatc hdc
    subst hatc; subst hdc
    simp [GameState.resolve_battle, hH, hA, hs, hpos, h1, h2,
      check_game_over_human, check_game_over_ai]

/-- C1 witness: an AI attack (value 1000) into a human defender in Defense
stance (value 2500): the AI loses exactly 1500 life and both cards stay. -/
theorem resolve_battle_rebound_witness :
    let atkC : Card := mkCard 2 "B" "Beast" 1500 1600 "Dark" 4
    let defC : Card := (mkCard 1 "A" "Dragon" 1800 2000 "Light" 4).set_position "DEF"
    let s : GameState :=
      { mkGameState 20 with
        human := { mkPlayer "Jugador" false with field := some defC },
        ai := { mkPlayer "IA" true with field := some atkC } }
    (s.resolve_battle "ai").2.ai.life_points = 6500 ∧
    (s.resolve_battle "ai").2.human.life_points = 8000 ∧
    (s.resolve_battle "ai").2.human.field = some defC ∧
    (s.resolve_battle "ai").2.ai.field = some atkC := by
  intro atkC defC s
  have h := resolve_battle_rebound s "ai" defC atkC rfl rfl atkC defC
    (by decide) (by decide) (by decide) (by decide)
  refine ⟨?_, ?_, h.2.2.1, h.2.2.2⟩
  · rw [h.2.1]; decide
  · rw [h.1]; decide

/-! ## Deep-copy independence (C5)

To express Python object identity, card instances are tagged with an
allocation number; `copy` draws fresh numbers from a supply.  Erasing the
tags recovers the pure model. -/

/-- A card instance together with its Python object identity. -/
structure TCard where
  card : Card
  tag : ℕ
deriving DecidableEq, Repr

/-- A player whose card instances carry identities. -/
structure TPlayer where
  name : String
  is_ai : Bool
  life_points : ℤ
  deck : List TCard
  hand : List TCard
  field : Option TCard
  graveyard : List TCard
  last_sacrificed_card : Option TCard
deriving DecidableEq, Repr

/-- A match state whose card instances carry identities. -/
structure TGameState where
  deck_size : ℕ
  human : TPlayer
  ai : TPlayer
  current_is_ai : Bool
  turn_number : ℕ
  game_over : Bool
  winner : Option Bool
  battle_log : List BattleResult
  last_battle_result : Option BattleResult
  phase : String
deriving DecidableEq, Repr

/-- `Card.copy` on a tagged card: identical card data, fresh identity. -/
def TCard.copy (c : TCard) (fresh : ℕ) : TCard × ℕ :=
  (⟨c.card.copyFields, fresh⟩, fresh + 1)

/-- Copy a list of cards left to right, threading the identity supply. -/
def copyTList : List TCard → ℕ → List TCard × ℕ
  | [], n => ([], n)
  | c :: rest, n =>
      let (c', n') := c.copy n
      let (rest', n'') := copyTList rest n'
      (c' :: rest', n'')

/-- Copy an optional card. -/
def copyTOpt : Option TCard → ℕ → Option TCard × ℕ
  | none, n => (none, n)
  | some c, n => let (c', n') := c.copy n; (some c', n')

/-- `Player.copy` on tagged players: deck, hand, field and graveyard cards
are copied with fresh identities; the sacrifice record starts empty. -/
def TPlayer.copy (p : TPlayer) (n : ℕ) : TPlayer × ℕ :=
  let (deck', n1) := copyTList p.deck n
  let (hand', n2) := copyTList p.hand n1
  let (field', n3) := copyTOpt p.field n2
  let (grave', n4) := copyTList p.graveyard n3
  ({ name := p.name, is_ai := p.is_ai, life_points := p.life_points,
     deck := deck', hand := hand', field := field', graveyard := grave',
     last_sacrificed_card := none }, n4)

/-- `GameState.copy` on tagged states. -/
def TGameState.copy (s : TGameState) (n : ℕ) : TGameState × ℕ :=
  let (human', n1) := s.human.copy n
  let (ai', n2) := s.ai.copy n1
  ({ deck_size := max 10 (min s.deck_size 40),
     human := human', ai := ai', current_is_ai := s.current_is_ai,
     turn_number := s.turn_number, game_over := s.game_over,
     winner := s.winner, battle_log := [], last_battle_result := none,
     phase := s.phase }, n2)

/-- The identities of every card instance a player owns. -/
def TPlayer.tags (p : TPlayer) : List ℕ :=
  p.deck.map TCard.tag ++ p.hand.map TCard.tag ++
  (p.field.map TCard.tag).toList ++ p.graveyard.map TCard.tag ++
  (p.last_sacrificed_card.map TCard.tag).toList

/-- The identities of every card instance in a state. -/
def TGameState.tags (s : TGameState) : List ℕ := s.human.tags ++ s.ai.tags

/-- Forget the identity of a card instance. -/
def TCard.erase (c : TCard) : Card := c.card

/-- Forget identities of a player's cards. -/
def TPlayer.erase (p : TPlayer) : Player :=
  { name := p.name, is_ai := p.is_ai, life_points := p.life_points,
    deck := p.deck.map TCard.erase, hand := p.hand.map TCard.erase,
    field := p.field.map TCard.erase,
    graveyard := p.graveyard.map TCard.erase,
    last_sacrificed_card := p.last_sacrificed_card.map TCard.erase }

/-- Forget identities of all cards in a state. -/
def TGameState.erase (s : TGameState) : GameState :=
  { deck_size := s.deck_size, human := s.human.erase, ai := s.ai.erase,
    current_is_ai := s.current_is_ai, turn_number := s.turn_number,
    game_over := s.game_over, winner := s.winner,
    battle_log := s.battle_log, last_battle_result := s.last_battle_result,
    phase := s.phase }

/-- Copying a card list: identities are drawn consecutively from the supply,
the supply advances by the length, and the card data is unchanged. -/
theorem copyTList_spec (l : List TCard) (n : ℕ) :
    (copyTList l n).2 = n + l.length ∧
    ((copyTList l n).1.map TCard.tag = List.range' n l.length) ∧
    ((copyTList l n).1.map TCard.erase = l.map TCard.erase) := by
  induction l generalizing n with
  | nil => simp [copyTList]
  | cons c rest ih =>
      obtain ⟨h1, h2, h3⟩ := ih (n + 1)
      refine ⟨?_, ?_, ?_⟩
      · simp [copyTList, TCard.copy, h1]; omega
      · simp [copyTList, TCard.copy, h2, List.range'_succ]
      · simp [copyTList, TCard.copy, h3, TCard.erase, Card.copyFields_eq]

/-- Copying an optional card. -/
theorem copyTOpt_spec (o : Option TCard) (n : ℕ) :
    (copyTOpt o n).2 = n + o.toList.length ∧
    ((copyTOpt o n).1.map TCard.tag).toList = List.range' n o.toList.length ∧
    ((copyTOpt o n).1.map TCard.erase = o.map TCard.erase) := by
  cases o with
  | none => simp [copyTOpt]
  | some c =>
      refine ⟨rfl, by simp [copyTOpt, TCard.copy, List.range'], ?_⟩
      simp [copyTOpt, TCard.copy, TCard.erase, Card.copyFields_eq]

/-- Copying a player: every fresh identity is in `[n, n')`, the supply
advances, and the erased copy is the pure-model `Player.copy`. -/
theorem copyTPlayer_spec (p : TPlayer) (n : ℕ) :
    n ≤ (p.copy n).2 ∧
    (∀ t ∈ (p.copy n).1.tags, n ≤ t ∧ t < (p.copy n).2) ∧
    ((p.copy n).1.erase = p.erase.copy) := by
  obtain ⟨hd1, hd2, hd3⟩ := copyTList_spec p.deck n
  obtain ⟨hh1, hh2, hh3⟩ := copyTList_spec p.hand (copyTList p.deck n).2
  obtain ⟨hf1, hf2, hf3⟩ :=
    copyTOpt_spec p.field (copyTList p.hand (copyTList p.deck n).2).2
  obtain ⟨hg1, hg2, hg3⟩ :=
    copyTList_spec p.graveyard
      (copyTOpt p.field (copyTList p.hand (copyTList p.deck n).2).2).2
  have hcopy : p.copy n =
      (⟨p.name, p.is_ai, p.life_points, (copyTList p.deck n).1,
        (copyTList p.hand (copyTList p.deck n).2).1,
        (copyTOpt p.field (copyTList p.hand (copyTList p.deck n).2).2).1,
        (copyTList p.graveyard
          (copyTOpt p.field (copyTList p.hand (copyTList p.deck n).2).2).2).1,
        none⟩,
       (copyTList p.graveyard
          (copyTOpt p.field (copyTList p.hand (copyTList p.deck n).2).2).2).2) := by
    simp [TPlayer.copy]
  constructor
  · rw [hcopy]; omega
  constructor
  · intro t ht
    rw [hcopy] at ht
    simp only [TPlayer.tags, List.mem_append] at ht
    rw [hcopy]
    dsimp only
    rcases ht with ((((ht | ht) | ht) | ht) | ht)
    · rw [hd2] at ht
      have hb : n ≤ t ∧ t < n + p.deck.length := by simpa using ht
      omega
    · rw [hh2] at ht
      have hb : (copyTList p.deck n).2 ≤ t ∧
          t < (copyTList p.deck n).2 + p.hand.length := by simpa using ht
      omega
    · rw [hf2] at ht
      have hb : (copyTList p.hand (copyTList p.deck n).2).2 ≤ t ∧
          t < (copyTList p.hand (copyTList p.deck n).2).2 + p.field.toList.length := by
        simpa using ht
      omega
    · rw [hg2] at ht
      have hb : (copyTOpt p.field (copyTList p.hand (copyTList p.deck n).2).2).2 ≤ t ∧
          t < (copyTOpt p.field (copyTList p.hand (copyTList p.deck n).2).2).2 +
            p.graveyard.length := by simpa using ht
      omega
    · simp at ht
  · rw [hcopy, Player.copy_eq]
    simp [TPlayer.erase, hd3, hh3, hf3, hg3]

/-- Copying a state: fresh identities only, and the erased copy is the
pure-model `GameState.copy`. -/
theorem copyTGameState_spec (s : TGameState) (n : ℕ) :
    (∀ t ∈ (s.copy n).1.tags, n ≤ t) ∧
    ((s.copy n).1.erase = s.erase.copy) := by
  obtain ⟨hh1, hh2, hh3⟩ := copyTPlayer_spec s.human n
  obtain ⟨ha1, ha2, ha3⟩ := copyTPlayer_spec s.ai (s.human.copy n).2
  have hcopy : s.copy n =
      (⟨max 10 (min s.deck_size 40), (s.human.copy n).1,
        (s.ai.copy (s.human.copy n).2).1, s.current_is_ai, s.turn_number,
        s.game_over, s.winner, [], none, s.phase⟩,
       (s.ai.copy (s.human.copy n).2).2) := by
    simp [TGameState.copy]
  constructor
  · intro t ht
    rw [hcopy] at ht
    simp only [TGameState.tags, List.mem_append] at ht
    rcases ht with ht | ht
    · exact (hh2 t ht).1
    · have := (ha2 t ht).1
      omega
  · rw [hcopy]
    simp only [TGameState.erase, GameState.copy, mkGameState]
    rw [hh3, ha3]

/-- C5: copying a well-formed tagged state shares no card instance with the
original (all identities are fresh), and the copy agrees with the original
on every observable field: both players' life totals, deck order, hand
contents, battlefield slot and discard pile, plus turn, phase, game-over
flag, winner and current player.  (In the pure model a mutation of the copy
is a function of the copy alone, so the original value is untouched by
construction; instance freshness is what rules out aliasing.) -/
theorem deep_copy_independence (s : TGameState) (n : ℕ)
    (hwf : ∀ t ∈ s.tags, t < n) :
    (∀ t ∈ (s.copy n).1.tags, t ∉ s.tags) ∧
    ((s.copy n).1.erase.human.life_points = s.erase.human.life_points ∧
     (s.copy n).1.erase.human.deck = s.erase.human.deck ∧
     (s.copy n).1.erase.human.hand = s.erase.human.hand ∧
     (s.copy n).1.erase.human.field = s.erase.human.field ∧
     (s.copy n).1.erase.human.graveyard = s.erase.human.graveyard) ∧
    ((s.copy n).1.erase.ai.life_points = s.erase.ai.life_points ∧
     (s.copy n).1.erase.ai.deck = s.erase.ai.deck ∧
     (s.copy n).1.erase.ai.hand = s.erase.ai.hand ∧
     (s.copy n).1.erase.ai.field = s.erase.ai.field ∧
     (s.copy n).1.erase.ai.graveyard = s.erase.ai.graveyard) ∧
    ((s.copy n).1.erase.turn_number = s.erase.turn_number ∧
     (s.copy n).1.erase.phase = s.erase.phase ∧
     (s.copy n).1.erase.game_over = s.erase.game_over ∧
     (s.copy n).1.erase.winner = s.erase.winner ∧
     (s.copy n).1.erase.current_is_ai = s.erase.current_is_ai) := by
  obtain ⟨hfresh, herase⟩ := copyTGameState_spec s n
  refine ⟨fun t ht hmem => absurd (hwf t hmem) (by have := hfresh t ht; omega),
    ?_, ?_, ?_⟩ <;>
    rw [herase] <;>
    simp [GameState.copy, mkGameState, Player.copy_eq]

/-- C5 witness: a concrete two-player state with identities 0–3 and supply
starting at 4. -/
theorem deep_copy_independence_witness :
    let c0 : TCard := ⟨mkCard 1 "A" "Dragon" 1800 1200 "Light" 4, 0⟩
    let c1 : TCard := ⟨mkCard 2 "B" "Beast" 1500 1600 "Dark" 4, 1⟩
    let c2 : TCard := ⟨mkCard 3 "C" "Pyro" 900 700 "Fire" 3, 2⟩
    let c3 : TCard := ⟨mkCard 4 "D" "Zombie" 2100 300 "Dark" 5, 3⟩
    let s : TGameState :=
      ⟨20, ⟨"Jugador", false, 8000, [c0], [c1], some c2, [], none⟩,
       ⟨"IA", true, 7000, [], [c3], none, [], none⟩,
       false, 1, false, none, [], none, "MAIN"⟩
    (∀ t ∈ (s.copy 4).1.tags, t ∉ s.tags) ∧
    (s.copy 4).1.erase.human.hand = s.erase.human.hand ∧
    (s.copy 4).1.erase.ai.life_points = s.erase.ai.life_points := by
  intro c0 c1 c2 c3 s
  have h := deep_copy_independence s 4 (by decide)
  exact ⟨h.1, h.2.1.2.2.1, h.2.2.1.1⟩

/-! ## Reachable states and the game-over invariant (C3) -/

/-- Replace the human player (the mutation of `self.human`). -/
def GameState.updHuman (s : GameState) (p : Player) : GameState :=
  { s with human := p }

/-- Replace the AI player. -/
def GameState.updAi (s : GameState) (p : Player) : GameState :=
  { s with ai := p }

/-- The states reachable through the engine's API: a set-up game followed by
any sequence of the engine's mutating operations. -/
inductive Reach (FS : List Fusion) : GameState → Prop where
  | setup (ds : ℕ) (hd ad : List Card) : Reach FS (GameState.setup_game ds hd ad)
  | draw_human {s} : Reach FS s → Reach FS (s.updHuman (s.human.draw_card).2)
  | draw_ai {s} : Reach FS s → Reach FS (s.updAi (s.ai.draw_card).2)
  | play_human {s} (i : ℕ) (pos : String) (st : ℕ) :
      Reach FS s → Reach FS (s.updHuman (s.human.play_card i pos st).2)
  | play_ai {s} (i : ℕ) (pos : String) (st : ℕ) :
      Reach FS s → Reach FS (s.updAi (s.ai.play_card i pos st).2)
  | fuse_human {s} (i j : ℕ) :
      Reach FS s → Reach FS (s.updHuman (s.human.fuse_cards FS i j).2)
  | fuse_ai {s} (i j : ℕ) :
      Reach FS s → Reach FS (s.updAi (s.ai.fuse_cards FS i j).2)
  | undo_human {s} : Reach FS s → Reach FS (s.updHuman (s.human.undo_play_card).2)
  | undo_ai {s} : Reach FS s → Reach FS (s.updAi (s.ai.undo_play_card).2)
  | apply_act {s} (b : Bool) (a : Action) :
      Reach FS s → Reach FS (s.apply_action FS b a)
  | battle {s} (atk : String) : Reach FS s → Reach FS (s.resolve_battle atk).2
  | check {s} : Reach FS s → Reach FS s.check_game_over
  | turn {s} : Reach FS s → Reach FS s.next_turn
  | copy {s} : Reach FS s → Reach FS s.copy

/-- `check_game_over` transfers the game-over/winner invariant. -/
theorem check_game_over_inv (s : GameState)
    (h : s.game_over = true → s.winner.isSome) :
    s.check_game_over.game_over = true → s.check_game_over.winner.isSome := by
  unfold GameState.check_game_over
  dsimp only
  split_ifs <;> simp_all

/-- `resolve_battle` transfers the game-over/winner invariant. -/
theorem resolve_battle_inv (s : GameState) (atk : String)
    (h : s.game_over = true → s.winner.isSome) :
    (s.resolve_battle atk).2.game_over = true →
      (s.resolve_battle atk).2.winner.isSome := by
  rcases hH : s.human.field with _ | hc
  · simpa [GameState.resolve_battle, hH] using h
  rcases hA : s.ai.field with _ | ac
  · simpa [GameState.resolve_battle, hH, hA] using h
  simp only [GameState.resolve_battle, hH, hA]
  split_ifs <;> exact check_game_over_inv _ h

/-- `apply_action` never touches the game-over flag or the winner. -/
theorem apply_action_flags (FS : List Fusion) (s : GameState) (b : Bool)
    (a : Action) :
    (s.apply_action FS b a).game_over = s.game_over ∧
    (s.apply_action FS b a).winner = s.winner := by
  cases a <;> unfold GameState.apply_action <;>
    first
      | exact ⟨rfl, rfl⟩
      | split_ifs <;> exact ⟨rfl, rfl⟩

/-- `next_turn` never touches the game-over flag or the winner. -/
theorem next_turn_flags (s : GameState) :
    s.next_turn.game_over = s.game_over ∧ s.next_turn.winner = s.winner := by
  unfold GameState.next_turn
  dsimp only
  split_ifs <;> exact ⟨rfl, rfl⟩

/-- C3 (amended, invariant half): on every reachable state, the game-over
flag being set implies the winner reference is set. -/
theorem game_over_implies_winner {FS : List Fusion} {s : GameState}
    (h : Reach FS s) : s.game_over = true → s.winner.isSome := by
  induction h with
  | setup ds hd ad =>
      intro hg
      exact absurd hg (by simp [GameState.setup_game, mkGameState])
  | draw_human _ ih => exact ih
  | draw_ai _ ih => exact ih
  | play_human i pos st _ ih => exact ih
  | play_ai i pos st _ ih => exact ih
  | fuse_human i j _ ih => exact ih
  | fuse_ai i j _ ih => exact ih
  | undo_human _ ih => exact ih
  | undo_ai _ ih => exact ih
  | apply_act b a _ ih =>
      intro hg
      rw [(apply_action_flags _ _ b a).2]
      exact ih ((apply_action_flags _ _ b a).1 ▸ hg)
  | battle atk _ ih => exact resolve_battle_inv _ atk ih
  | check _ ih => exact check_game_over_inv _ ih
  | turn _ ih =>
      intro hg
      rw [(next_turn_flags _).2]
      exact ih ((next_turn_flags _).1 ▸ hg)
  | copy _ ih => exact ih

/-- C3 (counterexample): a genuinely reachable game-over state — produced by
setting up a game, both sides playing a card, and a lethal AI attack — in
which the engine still generates a play action for the AI's remaining hand
card and `apply_action` still mutates the state.  This refutes "the engine
accepts no action in such a state". -/
theorem game_over_still_accepts_actions :
    let big : Card := mkCard 10 "Big" "Dragon" 99999 100 "Fire" 12
    let ext : Card := mkCard 12 "Ext" "Beast" 1200 900 "Earth" 4
    let sm : Card := mkCard 11 "Sm" "Beast" 100 100 "Earth" 1
    let s0 : GameState := GameState.setup_game 20 [sm, sm] [big, ext]
    let s1 : GameState := s0.apply_action [] false (Action.play 0 "ATK" 1 "Sm")
    let s2 : GameState := s1.apply_action [] true (Action.play 0 "ATK" 1 "Big")
    let s3 : GameState := (s2.resolve_battle "ai").2
    Reach [] s3 ∧ s3.game_over = true ∧ s3.winner = some true ∧
    Action.play 0 "ATK" 1 "Ext" ∈ get_possible_actions [] s3.ai ∧
    s3.apply_action [] true (Action.play 0 "ATK" 1 "Ext") ≠ s3 := by
  intro big ext sm s0 s1 s2 s3
  refine ⟨?_, by decide, by decide, by decide, by decide⟩
  exact Reach.battle "ai"
    (Reach.apply_act true _ (Reach.apply_act false _ (Reach.setup 20 _ _)))

/-- C3 witness: the amended invariant applied to the concrete reachable
game-over state of the trace above. -/
theorem game_over_implies_winner_witness :
    let big : Card := mkCard 10 "Big" "Dragon" 99999 100 "Fire" 12
    let ext : Card := mkCard 12 "Ext" "Beast" 1200 900 "Earth" 4
    let sm : Card := mkCard 11 "Sm" "Beast" 100 100 "Earth" 1
    let s3 : GameState :=
      (((GameState.setup_game 20 [sm, sm] [big, ext]).apply_action []
          false (Action.play 0 "ATK" 1 "Sm")).apply_action []
          true (Action.play 0 "ATK" 1 "Big")).resolve_battle "ai" |>.2
    s3.winner.isSome := by
  intro big ext sm s3
  exact game_over_implies_winner
    (Reach.battle "ai"
      (Reach.apply_act true _ (Reach.apply_act false _ (Reach.setup 20 _ _))))
    (by decide)

/-! ## Termination of the search (C10)

Each recursive call of `minimax` either lowers the remaining depth (play and
pass actions) or keeps the depth and strictly shrinks the acting player's
hand (fuse actions), while no call ever grows a hand.  Hence
`depth + |AI hand| + |human hand|` bounds the recursion depth, and the fuel
bound below is never exhausted. -/

/-- Finite values are strictly above `-math.inf`. -/
theorem bot_lt_toQI (q : ℚ) : (⊥ : QI) < toQI q := WithBot.bot_lt_coe _

/-- Finite values are strictly below `math.inf`. -/
theorem toQI_lt_posInf (q : ℚ) : toQI q < posInf :=
  WithBot.coe_lt_coe.mpr (WithTop.coe_lt_top q)

/-- Deep copy preserves both hands (and both players up to the sacrifice
record). -/
theorem copy_players (s : GameState) :
    s.copy.ai = { s.ai with last_sacrificed_card := none } ∧
    s.copy.human = { s.human with last_sacrificed_card := none } := by
  constructor <;> simp [GameState.copy, Player.copy_eq]

/-- Battle resolution never touches a hand. -/
theorem resolve_battle_hands (s : GameState) (atk : String) :
    (s.resolve_battle atk).2.ai.hand = s.ai.hand ∧
    (s.resolve_battle atk).2.human.hand = s.human.hand := by
  rcases hH : s.human.field with _ | hc
  · simp [GameState.resolve_battle, hH]
  rcases hA : s.ai.field with _ | ac
  · simp [GameState.resolve_battle, hH, hA]
  simp only [GameState.resolve_battle, hH, hA]
  split_ifs <;>
    exact ⟨by rw [check_game_over_ai], by rw [check_game_over_human]⟩

/-- Playing a card never grows the hand. -/
theorem play_card_hand_length (p : Player) (i : ℕ) (pos : String) (st : ℕ) :
    (p.play_card i pos st).2.hand.length ≤ p.hand.length := by
  unfold Player.play_card
  split_ifs with h
  · rcases hf : p.field with _ | f <;>
      · simp only [hf]
        simp [List.length_eraseIdx, h]
  · exact le_rfl

/-- Playing a card leaves the other fields of the hand's owner intact, so in
particular a successful play shrinks the hand by one. -/
theorem play_card_hand_length_valid (p : Player) (i : ℕ) (pos : String)
    (st : ℕ) (h : i < p.hand.length) :
    (p.play_card i pos st).2.hand.length + 1 = p.hand.length := by
  unfold Player.play_card
  rw [dif_pos h]
  rcases hf : p.field with _ | f <;>
    · simp only [hf]
      simp [List.length_eraseIdx, h]
      omega

/-- A successful fusion removes two cards and adds one: the hand strictly
shrinks. -/
theorem fuse_cards_hand_length (FS : List Fusion) (p : Player) (i j : ℕ)
    (r : Card) (hc : p.can_fuse FS i j = some r) :
    (p.fuse_cards FS i j).2.hand.length + 1 = p.hand.length := by
  have hcond : i < p.hand.length ∧ j < p.hand.length ∧ i ≠ j := by
    by_contra hn
    unfold Player.can_fuse at hc
    rw [dif_neg hn] at hc
    cases hc
  obtain ⟨hi, hj, hij⟩ := hcond
  unfold Player.fuse_cards
  rw [hc]
  dsimp only
  have hhi : (if i > j then i else j) < p.hand.length := by
    split_ifs <;> omega
  have hlo : (if i > j then j else i) < (if i > j then i else j) := by
    split_ifs <;> omega
  have h1 : p.hand[(if i > j then i else j)]? = some (p.hand.get ⟨_, hhi⟩) :=
    List.getElem?_eq_getElem hhi
  have hlo2 : (if i > j then j else i) < (p.hand.eraseIdx (if i > j then i else j)).length := by
    rw [List.length_eraseIdx]
    split_ifs at * <;> omega
  have h2 : (p.hand.eraseIdx (if i > j then i else j))[(if i > j then j else i)]? =
      some ((p.hand.eraseIdx (if i > j then i else j)).get ⟨_, hlo2⟩) :=
    List.getElem?_eq_getElem hlo2
  rw [h1, h2]
  simp only [List.length_append, List.length_eraseIdx]
  rw [List.length_eraseIdx] at hlo2
  split_ifs at * <;> simp <;> omega

/-- `can_fuse` reads only the hand. -/
theorem can_fuse_congr (FS : List Fusion) (p q : Player) (i j : ℕ)
    (h : p.hand = q.hand) : p.can_fuse FS i j = q.can_fuse FS i j := by
  unfold Player.can_fuse
  cases q
  simp only at h
  subst h
  rfl

/-- Membership in the fusion enumeration implies in-range indices and a
successful `can_fuse`. -/
theorem mem_possible_fusions (FS : List Fusion) (p : Player) (i j : ℕ)
    (r : Card) (h : (i, j, r) ∈ get_possible_fusions_for_hand FS p.hand) :
    p.can_fuse FS i j = some r := by
  simp only [get_possible_fusions_for_hand, List.mem_flatMap,
    List.mem_filterMap, List.mem_filter, List.mem_range,
    decide_eq_true_eq] at h
  obtain ⟨i', hi', j', ⟨hj', hij⟩, hmatch⟩ := h
  rcases hci : p.hand[i']? with _ | ci
  · simp [hci] at hmatch
  rcases hcj : p.hand[j']? with _ | cj
  · simp [hci, hcj] at hmatch
  rcases hch : check_fusion_by_cards FS ci cj with _ | res
  · simp [hci, hcj, hch] at hmatch
  simp only [hci, hcj, hch, Option.some.injEq, Prod.mk.injEq] at hmatch
  obtain ⟨rfl, rfl, rfl⟩ := hmatch
  unfold Player.can_fuse
  rw [dif_pos ⟨hi', hj', Nat.ne_of_lt hij⟩]
  have hgi : p.hand.get ⟨_, hi'⟩ = ci := by
    have := List.getElem?_eq_getElem hi'
    rw [hci] at this
    exact (Option.some_injective _ this.symm)
  have hgj : p.hand.get ⟨_, hj'⟩ = cj := by
    have := List.getElem?_eq_getElem hj'
    rw [hcj] at this
    exact (Option.some_injective _ this.symm)
  rw [hgi, hgj, hch]

/-- Every element of `playActions` is a play action with an in-range hand
index. -/
theorem mem_playActions (p : Player) (a : Action) (h : a ∈ playActions p) :
    ∃ i pos st nm, a = .play i pos st nm ∧ i < p.hand.length := by
  simp only [playActions, List.mem_flatMap] at h
  obtain ⟨⟨i, card⟩, hmem, hin⟩ := h
  have hi : i < p.hand.length := (List.mem_enum hmem).1
  simp only [List.mem_cons, List.not_mem_nil, or_false] at hin
  rcases hin with h | h | h | h
  · exact ⟨_, _, _, _, h, hi⟩
  · exact ⟨_, _, _, _, h, hi⟩
  · exact ⟨_, _, _, _, h, hi⟩
  · exact ⟨_, _, _, _, h, hi⟩

/-- Every element of `fuseActions` is a fuse action whose `can_fuse`
succeeds. -/
theorem mem_fuseActions (FS : List Fusion) (p : Player) (a : Action)
    (h : a ∈ fuseActions FS p) :
    ∃ i j r, a = .fuse i j r.name ∧ p.can_fuse FS i j = some r := by
  simp only [fuseActions, Player.get_possible_fusions, List.mem_map] at h
  obtain ⟨⟨i, j, r⟩, hmem, heq⟩ := h
  exact ⟨i, j, r, heq.symm, mem_possible_fusions FS p i j r hmem⟩

/-- Every generated action is a play with an in-range index, a pass, or a
fuse whose `can_fuse` succeeds. -/
theorem mem_get_possible_actions (FS : List Fusion) (p : Player) (a : Action)
    (ha : a ∈ get_possible_actions FS p) :
    (∃ i pos st nm, a = .play i pos st nm ∧ i < p.hand.length) ∨ a = .pass ∨
    (∃ i j r, a = .fuse i j r.name ∧ p.can_fuse FS i j = some r) := by
  have key : ∀ x : Action, x ∈ playActions p ++ fuseActions FS p →
      (∃ i pos st nm, x = .play i pos st nm ∧ i < p.hand.length) ∨ x = .pass ∨
      (∃ i j r, x = .fuse i j r.name ∧ p.can_fuse FS i j = some r) := by
    intro x hx
    rcases List.mem_append.mp hx with hx | hx
    · exact Or.inl (mem_playActions p x hx)
    · exact Or.inr (Or.inr (mem_fuseActions FS p x hx))
  unfold get_possible_actions at ha
  dsimp only at ha
  split_ifs at ha with h1 h2 h3
  · rcases List.mem_append.mp ha with ha | ha
    · rcases List.mem_append.mp ha with ha | ha
      · exact key a ha
      · exact Or.inr (Or.inl (List.mem_singleton.mp ha))
    · exact Or.inr (Or.inl (List.mem_singleton.mp ha))
  · rcases List.mem_append.mp ha with ha | ha
    · exact key a ha
    · exact Or.inr (Or.inl (List.mem_singleton.mp ha))
  · rcases List.mem_append.mp ha with ha | ha
    · exact key a ha
    · exact Or.inr (Or.inl (List.mem_singleton.mp ha))
  · exact key a ha

/-- The hands of a simulated child state: the total hand size never grows,
and strictly shrinks for the mover on a generated fuse action. -/
theorem childState_hands (FS : List Fusion) (s : GameState) (m : Bool)
    (a : Action)
    (ha : a ∈ get_possible_actions FS (if m then s.ai else s.human)) :
    (childState FS s m a).ai.hand.length +
      (childState FS s m a).human.hand.length +
      (match a with | .fuse _ _ _ => 1 | _ => 0) ≤
    s.ai.hand.length + s.human.hand.length := by
  have hfin : ∀ t : GameState,
      (if t.human.field.isSome && t.ai.field.isSome then
          (t.resolve_battle (if m then "ai" else "human")).2 else t).ai.hand
        = t.ai.hand ∧
      (if t.human.field.isSome && t.ai.field.isSome then
          (t.resolve_battle (if m then "ai" else "human")).2 else t).human.hand
        = t.human.hand := by
    intro t
    refine ⟨?_, ?_⟩ <;> split_ifs <;>
      first
        | exact (resolve_battle_hands t _).1
        | exact (resolve_battle_hands t _).2
        | rfl
  have hcA : s.copy.ai.hand = s.ai.hand := by rw [(copy_players s).1]
  have hcH : s.copy.human.hand = s.human.hand := by rw [(copy_players s).2]
  unfold childState
  dsimp only
  rw [congrArg List.length (hfin (GameState.apply_action FS s.copy m a)).1,
      congrArg List.length (hfin (GameState.apply_action FS s.copy m a)).2]
  cases m with
  | true =>
      rcases a with ⟨i, pos, st, nm⟩ | ⟨i, j, nm⟩ | _
      · have h1 := play_card_hand_length s.copy.ai i pos st
        rw [hcA] at h1
        simp only [GameState.apply_action, if_true, hcH]
        omega
      · rcases mem_get_possible_actions FS _ _ ha with ⟨i', p', st', nm', h, _⟩ | h |
          ⟨i', j', r, heq, hcf⟩
        · cases h
        · cases h
        · cases heq
          have hcf' : s.copy.ai.can_fuse FS i j = some r := by
            rw [can_fuse_congr FS s.copy.ai s.ai i j hcA]
            simpa using hcf
          have h1 := fuse_cards_hand_length FS s.copy.ai i j r hcf'
          rw [hcA] at h1
          simp only [GameState.apply_action, if_true, hcH]
          omega
      · simp only [GameState.apply_action, hcA, hcH]
        omega
  | false =>
      rcases a with ⟨i, pos, st, nm⟩ | ⟨i, j, nm⟩ | _
      · have h1 := play_card_hand_length s.copy.human i pos st
        rw [hcH] at h1
        simp only [GameState.apply_action, Bool.false_eq_true, if_false, hcA]
        omega
      · rcases mem_get_possible_actions FS _ _ ha with ⟨i', p', st', nm', h, _⟩ | h |
          ⟨i', j', r, heq, hcf⟩
        · cases h
        · cases h
        · cases heq
          have hcf' : s.copy.human.can_fuse FS i j = some r := by
            rw [can_fuse_congr FS s.copy.human s.human i j hcH]
            simpa using hcf
          have h1 := fuse_cards_hand_length FS s.copy.human i j r hcf'
          rw [hcH] at h1
          simp only [GameState.apply_action, Bool.false_eq_true, if_false, hcA]
          omega
      · simp only [GameState.apply_action, hcA, hcH]
        omega

/-- The termination measure of the search: remaining depth plus both hand
sizes. -/
def meas (s : GameState) (depth : ℕ) : ℕ :=
  depth + s.ai.hand.length + s.human.hand.length

/-- Each simulated action strictly lowers the measure: fuse keeps the depth
but shrinks the mover's hand; play and pass lower the depth. -/
theorem childState_meas_lt (FS : List Fusion) (s : GameState) (m : Bool)
    (a : Action) (depth : ℕ) (hd : depth ≠ 0)
    (ha : a ∈ get_possible_actions FS (if m then s.ai else s.human)) :
    (match a with
     | .fuse _ _ _ => meas (childState FS s m a) depth
     | _ => meas (childState FS s m a) (depth - 1)) < meas s depth := by
  have h := childState_hands FS s m a ha
  unfold meas
  rcases a <;> dsimp only at h ⊢ <;> omega

/-- The maximizing loop returns a finite value when the fuel dominates the
measure. -/
theorem abMaxLoop_isSome (FS : List Fusion) (fuel : ℕ)
    (hIH : ∀ s depth alpha beta m, meas s depth < fuel →
      ∃ q act, minimaxAB FS fuel s depth alpha beta m = some (toQI q, act)) :
    ∀ (acts : List Action) (s : GameState) (depth : ℕ)
      (alpha beta me : QI) (best : Action),
      depth ≠ 0 → meas s depth ≤ fuel →
      (∀ a ∈ acts, a ∈ get_possible_actions FS s.ai) →
      ((∃ q, me = toQI q) ∨ (me = ⊥ ∧ acts ≠ [])) →
      ∃ q act, abMaxLoop FS fuel s depth acts alpha beta me best =
        some (toQI q, some act) := by
  intro acts
  induction acts with
  | nil =>
      intro s depth alpha beta me best hd hm hacts hme
      rcases hme with ⟨q, rfl⟩ | ⟨_, hne⟩
      · exact ⟨q, best, by rw [abMaxLoop]⟩
      · exact absurd rfl hne
  | cons a rest ih =>
      intro s depth alpha beta me best hd hm hacts hme
      have hmem := hacts a (List.mem_cons_self a rest)
      have hmem' : a ∈ get_possible_actions FS (if true then s.ai else s.human) := by
        simpa using hmem
      have hlt := childState_meas_lt FS s true a depth hd hmem'
      have hrest : ∀ b ∈ rest, b ∈ get_possible_actions FS s.ai :=
        fun b hb => hacts b (List.mem_cons_of_mem a hb)
      have hfin : ∀ qc : ℚ, ∃ q', (if toQI qc > me then toQI qc else me) = toQI q' := by
        intro qc
        rcases hme with ⟨q, rfl⟩ | ⟨rfl, _⟩
        · split_ifs <;> exact ⟨_, rfl⟩
        · rw [if_pos (bot_lt_toQI qc)]
          exact ⟨qc, rfl⟩
      rcases a with ⟨i, pos, st, nm⟩ | ⟨i, j, nm⟩ | _
      · obtain ⟨qc, act', hsub⟩ :=
          hIH (childState FS s true (.play i pos st nm)) (depth - 1) alpha beta
            false (lt_of_lt_of_le hlt hm)
        rw [abMaxLoop]
        dsimp only
        rw [hsub]
        dsimp only
        obtain ⟨q', hq'⟩ := hfin qc
        rw [hq']
        split_ifs <;>
          first
            | exact fun _ _ _ h => Action.noConfusion h
            | exact ⟨q', _, rfl⟩
            | exact ih s depth (max alpha (toQI qc)) beta (toQI q') _ hd hm hrest
                (Or.inl ⟨q', rfl⟩)
        all_goals exact fun _ _ _ h => Action.noConfusion h
      · obtain ⟨qc, act', hsub⟩ :=
          hIH (childState FS s true (.fuse i j nm)) depth alpha beta
            true (lt_of_lt_of_le hlt hm)
        rw [abMaxLoop]
        dsimp only
        rw [hsub]
        dsimp only
        obtain ⟨q', hq'⟩ := hfin qc
        rw [hq']
        split_ifs <;>
          first
            | exact ⟨q', _, rfl⟩
            | exact ih s depth (max alpha (toQI qc)) beta (toQI q') _ hd hm hrest
                (Or.inl ⟨q', rfl⟩)
      · obtain ⟨qc, act', hsub⟩ :=
          hIH (childState FS s true .pass) (depth - 1) alpha beta
            false (lt_of_lt_of_le hlt hm)
        rw [abMaxLoop]
        dsimp only
        rw [hsub]
        dsimp only
        obtain ⟨q', hq'⟩ := hfin qc
        rw [hq']
        split_ifs <;>
          first
            | exact fun _ _ _ h => Action.noConfusion h
            | exact ⟨q', _, rfl⟩
            | exact ih s depth (max alpha (toQI qc)) beta (toQI q') _ hd hm hrest
                (Or.inl ⟨q', rfl⟩)
        all_goals exact fun _ _ _ h => Action.noConfusion h

/-- The minimizing loop returns a finite value when the fuel dominates the
measure. -/
theorem abMinLoop_isSome (FS : List Fusion) (fuel : ℕ)
    (hIH : ∀ s depth alpha beta m, meas s depth < fuel →
      ∃ q act, minimaxAB FS fuel s depth alpha beta m = some (toQI q, act)) :
    ∀ (acts : List Action) (s : GameState) (depth : ℕ)
      (alpha beta mi : QI) (best : Action),
      depth ≠ 0 → meas s depth ≤ fuel →
      (∀ a ∈ acts, a ∈ get_possible_actions FS s.human) →
      ((∃ q, mi = toQI q) ∨ (mi = posInf ∧ acts ≠ [])) →
      ∃ q act, abMinLoop FS fuel s depth acts alpha beta mi best =
        some (toQI q, some act) := by
  intro acts
  induction acts with
  | nil =>
      intro s depth alpha beta mi best hd hm hacts hmi
      rcases hmi with ⟨q, rfl⟩ | ⟨_, hne⟩
      · exact ⟨q, best, by rw [abMinLoop]⟩
      · exact absurd rfl hne
  | cons a rest ih =>
      intro s depth alpha beta mi best hd hm hacts hmi
      have hmem := hacts a (List.mem_cons_self a rest)
      have hmem' : a ∈ get_possible_actions FS (if false then s.ai else s.human) := by
        simpa using hmem
      have hlt := childState_meas_lt FS s false a depth hd hmem'
      have hrest : ∀ b ∈ rest, b ∈ get_possible_actions FS s.human :=
        fun b hb => hacts b (List.mem_cons_of_mem a hb)
      have hfin : ∀ qc : ℚ, ∃ q', (if toQI qc < mi then toQI qc else mi) = toQI q' := by
        intro qc
        rcases hmi with ⟨q, rfl⟩ | ⟨rfl, _⟩
        · split_ifs <;> exact ⟨_, rfl⟩
        · rw [if_pos (toQI_lt_posInf qc)]
          exact ⟨qc, rfl⟩
      rcases a with ⟨i, pos, st, nm⟩ | ⟨i, j, nm⟩ | _
      · obtain ⟨qc, act', hsub⟩ :=
          hIH (childState FS s false (.play i pos st nm)) (depth - 1) alpha beta
            true (lt_of_lt_of_le hlt hm)
        rw [abMinLoop]
        dsimp only
        rw [hsub]
        dsimp only
        obtain ⟨q', hq'⟩ := hfin qc
        rw [hq']
        split_ifs <;>
          first
            | exact fun _ _ _ h => Action.noConfusion h
            | exact ⟨q', _, rfl⟩
            | exact ih s depth alpha (min beta (toQI qc)) (toQI q') _ hd hm hrest
                (Or.inl ⟨q', rfl⟩)
        all_goals exact fun _ _ _ h => Action.noConfusion h
      · obtain ⟨qc, act', hsub⟩ :=
          hIH (childState FS s false (.fuse i j nm)) depth alpha beta
            false (lt_of_lt_of_le hlt hm)
        rw [abMinLoop]
        dsimp only
        rw [hsub]
        dsimp only
        obtain ⟨q', hq'⟩ := hfin qc
        rw [hq']
        split_ifs <;>
          first
            | exact ⟨q', _, rfl⟩
            | exact ih s depth alpha (min beta (toQI qc)) (toQI q') _ hd hm hrest
                (Or.inl ⟨q', rfl⟩)
      · obtain ⟨qc, act', hsub⟩ :=
          hIH (childState FS s false .pass) (depth - 1) alpha beta
            true (lt_of_lt_of_le hlt hm)
        rw [abMinLoop]
        dsimp only
        rw [hsub]
        dsimp only
        obtain ⟨q', hq'⟩ := hfin qc
        rw [hq']
        split_ifs <;>
          first
            | exact fun _ _ _ h => Action.noConfusion h
            | exact ⟨q', _, rfl⟩
            | exact ih s depth alpha (min beta (toQI qc)) (toQI q') _ hd hm hrest
                (Or.inl ⟨q', rfl⟩)
        all_goals exact fun _ _ _ h => Action.noConfusion h

/-- With fuel above the measure, the alpha-beta search always returns, and
its value is finite. -/
theorem minimaxAB_isSome (FS : List Fusion) :
    ∀ (fuel : ℕ) (s : GameState) (depth : ℕ) (alpha beta : QI) (m : Bool),
      meas s depth < fuel →
      ∃ q act, minimaxAB FS fuel s depth alpha beta m = some (toQI q, act) := by
  intro fuel
  induction fuel with
  | zero => intro s depth alpha beta m h; omega
  | succ fuel ih =>
      intro s depth alpha beta m hm
      rw [minimaxAB]
      by_cases hterm : depth = 0 ∨ s.game_over = true
      · rw [if_pos hterm]
        exact ⟨_, none, rfl⟩
      · rw [if_neg hterm]
        have hd : depth ≠ 0 := fun h0 => hterm (Or.inl h0)
        have hm' : meas s depth ≤ fuel := by omega
        rcases hacts : get_possible_actions FS (if m then s.ai else s.human)
          with _ | ⟨a0, rest⟩
        · simp only [hacts]
          exact ⟨_, none, rfl⟩
        · simp only [hacts]
          cases m with
          | true =>
              simp only [if_true]
              obtain ⟨q, act, hq⟩ := abMaxLoop_isSome FS fuel ih (a0 :: rest)
                s depth alpha beta ⊥ a0 hd hm'
                (fun a ha => by rw [← hacts] at ha; simpa using ha)
                (Or.inr ⟨rfl, by simp⟩)
              exact ⟨q, some act, hq⟩
          | false =>
              simp only [Bool.false_eq_true, if_false]
              obtain ⟨q, act, hq⟩ := abMinLoop_isSome FS fuel ih (a0 :: rest)
                s depth alpha beta posInf a0 hd hm'
                (fun a ha => by rw [← hacts] at ha; simpa using ha)
                (Or.inr ⟨rfl, by simp⟩)
              exact ⟨q, some act, hq⟩

/-- C10: the search recursion is well-founded.  Fuse actions recurse at the
same depth but strictly shrink the acting player's hand (two cards out, one
in), and play/pass actions recurse at depth − 1, so
`depth + |AI hand| + |human hand|` strictly decreases along every recursive
call: any fuel beyond that sum is never exhausted, i.e. `minimax` terminates
on every input state and finite depth. -/
theorem minimax_terminates (FS : List Fusion) (fuel : ℕ) (s : GameState)
    (depth : ℕ) (alpha beta : QI) (m : Bool)
    (h : depth + s.ai.hand.length + s.human.hand.length < fuel) :
    (minimaxAB FS fuel s depth alpha beta m).isSome := by
  obtain ⟨q, act, hq⟩ := minimaxAB_isSome FS fuel s depth alpha beta m h
  rw [hq]
  rfl

/-- C10 witness: depth 3 from a small concrete state with fuel 4. -/
theorem minimax_terminates_witness :
    let c : Card := mkCard 1 "A" "Dragon" 1800 1200 "Light" 4
    let s : GameState :=
      { mkGameState 20 with
        human := { mkPlayer "Jugador" false with field := some c },
        ai := { mkPlayer "IA" true with field := some c } }
    (minimaxAB [] 4 s 3 ⊥ posInf true).isSome := by
  intro c s
  exact minimax_terminates [] 4 s 3 ⊥ posInf true (by decide)

/-! ## Alpha-beta pruning is exact (C6)

The classic fail-soft window argument: a pruned node's return value is exact
when it lies strictly inside the window, an upper bound on the true value
when it fails low, and a lower bound when it fails high.  At the root the
window is `(-inf, +inf)`, so value and chosen action agree with the
unpruned minimax. -/

/-- The depth passed to a child call: unchanged for fuse, one less for play
and pass (the loops' depth pattern). -/
def childDepth (a : Action) (depth : ℕ) : ℕ :=
  match a with
  | .fuse _ _ _ => depth
  | .play _ _ _ _ => depth - 1
  | .pass => depth - 1

/-- The maximizing flag passed to a child call: unchanged for fuse, flipped
for play and pass. -/
def childMax (a : Action) (m : Bool) : Bool :=
  match a with
  | .fuse _ _ _ => m
  | .play _ _ _ _ => !m
  | .pass => !m

/-- `childState_meas_lt` rephrased through `childDepth`. -/
theorem childState_meas_lt' (FS : List Fusion) (s : GameState) (m : Bool)
    (a : Action) (depth : ℕ) (hd : depth ≠ 0)
    (ha : a ∈ get_possible_actions FS (if m then s.ai else s.human)) :
    meas (childState FS s m a) (childDepth a depth) < meas s depth := by
  have h := childState_meas_lt FS s m a depth hd ha
  rcases a <;> simpa [childDepth] using h

/-- Unfolding the maximizing loop at a cons when the child call returns a
value. -/
theorem abMaxLoop_cons_some (FS : List Fusion) (fuel : ℕ) (s : GameState)
    (depth : ℕ) (a : Action) (rest : List Action) (alpha beta me : QI)
    (best : Action) (v : QI) (act' : Option Action)
    (h : minimaxAB FS fuel (childState FS s true a) (childDepth a depth)
          alpha beta (childMax a true) = some (v, act')) :
    abMaxLoop FS fuel s depth (a :: rest) alpha beta me best =
      (if beta ≤ max alpha v then
        some ((if v > me then v else me), some (if v > me then a else best))
       else abMaxLoop FS fuel s depth rest (max alpha v) beta
         (if v > me then v else me) (if v > me then a else best)) := by
  rcases a with ⟨i, pos, st, nm⟩ | ⟨i, j, nm⟩ | _
  · rw [abMaxLoop]
    all_goals try exact fun _ _ _ hX => Action.noConfusion hX
    dsimp only
    simp only [childDepth, childMax, Bool.not_true] at h
    rw [h]
  · rw [abMaxLoop]
    dsimp only
    simp only [childDepth, childMax] at h
    rw [h]
  · rw [abMaxLoop]
    all_goals try exact fun _ _ _ hX => Action.noConfusion hX
    dsimp only
    simp only [childDepth, childMax, Bool.not_true] at h
    rw [h]

/-- Unfolding the maximizing loop at a cons when the child call runs out of
fuel. -/
theorem abMaxLoop_cons_none (FS : List Fusion) (fuel : ℕ) (s : GameState)
    (depth : ℕ) (a : Action) (rest : List Action) (alpha beta me : QI)
    (best : Action)
    (h : minimaxAB FS fuel (childState FS s true a) (childDepth a depth)
          alpha beta (childMax a true) = none) :
    abMaxLoop FS fuel s depth (a :: rest) alpha beta me best = none := by
  rcases a with ⟨i, pos, st, nm⟩ | ⟨i, j, nm⟩ | _
  · rw [abMaxLoop]
    all_goals try exact fun _ _ _ hX => Action.noConfusion hX
    dsimp only
    simp only [childDepth, childMax, Bool.not_true] at h
    rw [h]
  · rw [abMaxLoop]
    dsimp only
    simp only [childDepth, childMax] at h
    rw [h]
  · rw [abMaxLoop]
    all_goals try exact fun _ _ _ hX => Action.noConfusion hX
    dsimp only
    simp only [childDepth, childMax, Bool.not_true] at h
    rw [h]

/-- Unfolding the minimizing loop at a cons when the child call returns a
value. -/
theorem abMinLoop_cons_some (FS : List Fusion) (fuel : ℕ) (s : GameState)
    (depth : ℕ) (a : Action) (rest : List Action) (alpha beta mi : QI)
    (best : Action) (v : QI) (act' : Option Action)
    (h : minimaxAB FS fuel (childState FS s false a) (childDepth a depth)
          alpha beta (childMax a false) = some (v, act')) :
    abMinLoop FS fuel s depth (a :: rest) alpha beta mi best =
      (if min beta v ≤ alpha then
        some ((if v < mi then v else mi), some (if v < mi then a else best))
       else abMinLoop FS fuel s depth rest alpha (min beta v)
         (if v < mi then v else mi) (if v < mi then a else best)) := by
  rcases a with ⟨i, pos, st, nm⟩ | ⟨i, j, nm⟩ | _
  · rw [abMinLoop]
    all_goals try exact fun _ _ _ hX => Action.noConfusion hX
    dsimp only
    simp only [childDepth, childMax, Bool.not_false] at h
    rw [h]
  · rw [abMinLoop]
    dsimp only
    simp only [childDepth, childMax] at h
    rw [h]
  · rw [abMinLoop]
    all_goals try exact fun _ _ _ hX => Action.noConfusion hX
    dsimp only
    simp only [childDepth, childMax, Bool.not_false] at h
    rw [h]

/-- Unfolding the minimizing loop at a cons when the child call runs out of
fuel. -/
theorem abMinLoop_cons_none (FS : List Fusion) (fuel : ℕ) (s : GameState)
    (depth : ℕ) (a : Action) (rest : List Action) (alpha beta mi : QI)
    (best : Action)
    (h : minimaxAB FS fuel (childState FS s false a) (childDepth a depth)
          alpha beta (childMax a false) = none) :
    abMinLoop FS fuel s depth (a :: rest) alpha beta mi best = none := by
  rcases a with ⟨i, pos, st, nm⟩ | ⟨i, j, nm⟩ | _
  · rw [abMinLoop]
    all_goals try exact fun _ _ _ hX => Action.noConfusion hX
    dsimp only
    simp only [childDepth, childMax, Bool.not_false] at h
    rw [h]
  · rw [abMinLoop]
    dsimp only
    simp only [childDepth, childMax] at h
    rw [h]
  · rw [abMinLoop]
    all_goals try exact fun _ _ _ hX => Action.noConfusion hX
    dsimp only
    simp only [childDepth, childMax, Bool.not_false] at h
    rw [h]

/-- Unfolding the unpruned maximizing loop at a cons when the child call
returns a value. -/
theorem plainMaxLoop_cons_some (FS : List Fusion) (fuel : ℕ) (s : GameState)
    (depth : ℕ) (a : Action) (rest : List Action) (me : QI)
    (best : Action) (v : QI) (act' : Option Action)
    (h : minimaxPlain FS fuel (childState FS s true a) (childDepth a depth)
          (childMax a true) = some (v, act')) :
    plainMaxLoop FS fuel s depth (a :: rest) me best =
      plainMaxLoop FS fuel s depth rest
        (if v > me then v else me) (if v > me then a else best) := by
  rcases a with ⟨i, pos, st, nm⟩ | ⟨i, j, nm⟩ | _
  · rw [plainMaxLoop]
    all_goals try exact fun _ _ _ hX => Action.noConfusion hX
    dsimp only
    simp only [childDepth, childMax, Bool.not_true] at h
    rw [h]
  · rw [plainMaxLoop]
    dsimp only
    simp only [childDepth, childMax] at h
    rw [h]
  · rw [plainMaxLoop]
    all_goals try exact fun _ _ _ hX => Action.noConfusion hX
    dsimp only
    simp only [childDepth, childMax, Bool.not_true] at h
    rw [h]

/-- Unfolding the unpruned maximizing loop at a cons when the child call
runs out of fuel. -/
theorem plainMaxLoop_cons_none (FS : List Fusion) (fuel : ℕ) (s : GameState)
    (depth : ℕ) (a : Action) (rest : List Action) (me : QI) (best : Action)
    (h : minimaxPlain FS fuel (childState FS s true a) (childDepth a depth)
          (childMax a true) = none) :
    plainMaxLoop FS fuel s depth (a :: rest) me best = none := by
  rcases a with ⟨i, pos, st, nm⟩ | ⟨i, j, nm⟩ | _
  · rw [plainMaxLoop]
    all_goals try exact fun _ _ _ hX => Action.noConfusion hX
    dsimp only
    simp only [childDepth, childMax, Bool.not_true] at h
    rw [h]
  · rw [plainMaxLoop]
    dsimp only
    simp only [childDepth, childMax] at h
    rw [h]
  · rw [plainMaxLoop]
    all_goals try exact fun _ _ _ hX => Action.noConfusion hX
    dsimp only
    simp only [childDepth, childMax, Bool.not_true] at h
    rw [h]

/-- Unfolding the unpruned minimizing loop at a cons when the child call
returns a value. -/
theorem plainMinLoop_cons_some (FS : List Fusion) (fuel : ℕ) (s : GameState)
    (depth : ℕ) (a : Action) (rest : List Action) (mi : QI)
    (best : Action) (v : QI) (act' : Option Action)
    (h : minimaxPlain FS fuel (childState FS s false a) (childDepth a depth)
          (childMax a false) = some (v, act')) :
    plainMinLoop FS fuel s depth (a :: rest) mi best =
      plainMinLoop FS fuel s depth rest
        (if v < mi then v else mi) (if v < mi then a else best) := by
  rcases a with ⟨i, pos, st, nm⟩ | ⟨i, j, nm⟩ | _
  · rw [plainMinLoop]
    all_goals try exact fun _ _ _ hX => Action.noConfusion hX
    dsimp only
    simp only [childDepth, childMax, Bool.not_false] at h
    rw [h]
  · rw [plainMinLoop]
    dsimp only
    simp only [childDepth, childMax] at h
    rw [h]
  · rw [plainMinLoop]
    all_goals try exact fun _ _ _ hX => Action.noConfusion hX
    dsimp only
    simp only [childDepth, childMax, Bool.not_false] at h
    rw [h]

/-- Unfolding the unpruned minimizing loop at a cons when the child call
runs out of fuel. -/
theorem plainMinLoop_cons_none (FS : List Fusion) (fuel : ℕ) (s : GameState)
    (depth : ℕ) (a : Action) (rest : List Action) (mi : QI) (best : Action)
    (h : minimaxPlain FS fuel (childState FS s false a) (childDepth a depth)
          (childMax a false) = none) :
    plainMinLoop FS fuel s depth (a :: rest) mi best = none := by
  rcases a with ⟨i, pos, st, nm⟩ | ⟨i, j, nm⟩ | _
  · rw [plainMinLoop]
    all_goals try exact fun _ _ _ hX => Action.noConfusion hX
    dsimp only
    simp only [childDepth, childMax, Bool.not_false] at h
    rw [h]
  · rw [plainMinLoop]
    dsimp only
    simp only [childDepth, childMax] at h
    rw [h]
  · rw [plainMinLoop]
    all_goals try exact fun _ _ _ hX => Action.noConfusion hX
    dsimp only
    simp only [childDepth, childMax, Bool.not_false] at h
    rw [h]

/-- The maximizing loop's result is at least its accumulator. -/
theorem abMaxLoop_mono (FS : List Fusion) (fuel : ℕ) :
    ∀ (acts : List Action) (s : GameState) (depth : ℕ) (alpha beta me : QI)
      (best : Action) (R : QI) (aR : Option Action),
      abMaxLoop FS fuel s depth acts alpha beta me best = some (R, aR) →
      me ≤ R := by
  intro acts
  induction acts with
  | nil =>
      intro s depth alpha beta me best R aR h
      rw [abMaxLoop] at h
      cases h
      exact le_rfl
  | cons a rest ih =>
      intro s depth alpha beta me best R aR h
      rcases hsub : minimaxAB FS fuel (childState FS s true a)
          (childDepth a depth) alpha beta (childMax a true) with _ | ⟨v, act'⟩
      · rw [abMaxLoop_cons_none FS fuel s depth a rest alpha beta me best hsub] at h
        cases h
      · rw [abMaxLoop_cons_some FS fuel s depth a rest alpha beta me best
          v act' hsub] at h
        by_cases hv : v > me
        · simp only [if_pos hv] at h
          split_ifs at h
          · cases h; exact le_of_lt hv
          · exact le_trans (le_of_lt hv) (ih _ _ _ _ _ _ _ _ h)
        · simp only [if_neg hv] at h
          split_ifs at h
          · cases h; exact le_rfl
          · exact ih _ _ _ _ _ _ _ _ h

/-- The minimizing loop's result is at most its accumulator. -/
theorem abMinLoop_mono (FS : List Fusion) (fuel : ℕ) :
    ∀ (acts : List Action) (s : GameState) (depth : ℕ) (alpha beta mi : QI)
      (best : Action) (R : QI) (aR : Option Action),
      abMinLoop FS fuel s depth acts alpha beta mi best = some (R, aR) →
      R ≤ mi := by
  intro acts
  induction acts with
  | nil =>
      intro s depth alpha beta mi best R aR h
      rw [abMinLoop] at h
      cases h
      exact le_rfl
  | cons a rest ih =>
      intro s depth alpha beta mi best R aR h
      rcases hsub : minimaxAB FS fuel (childState FS s false a)
          (childDepth a depth) alpha beta (childMax a false) with _ | ⟨v, act'⟩
      · rw [abMinLoop_cons_none FS fuel s depth a rest alpha beta mi best hsub] at h
        cases h
      · rw [abMinLoop_cons_some FS fuel s depth a rest alpha beta mi best
          v act' hsub] at h
        by_cases hv : v < mi
        · simp only [if_pos hv] at h
          split_ifs at h
          · cases h; exact le_of_lt hv
          · exact le_trans (ih _ _ _ _ _ _ _ _ h) (le_of_lt hv)
        · simp only [if_neg hv] at h
          split_ifs at h
          · cases h; exact le_rfl
          · exact ih _ _ _ _ _ _ _ _ h

/-- The unpruned maximizing loop's result is at least its accumulator. -/
theorem plainMaxLoop_mono (FS : List Fusion) (fuel : ℕ) :
    ∀ (acts : List Action) (s : GameState) (depth : ℕ) (me : QI)
      (best : Action) (V : QI) (aV : Option Action),
      plainMaxLoop FS fuel s depth acts me best = some (V, aV) → me ≤ V := by
  intro acts
  induction acts with
  | nil =>
      intro s depth me best V aV h
      rw [plainMaxLoop] at h
      cases h
      exact le_rfl
  | cons a rest ih =>
      intro s depth me best V aV h
      rcases hsub : minimaxPlain FS fuel (childState FS s true a)
          (childDepth a depth) (childMax a true) with _ | ⟨v, act'⟩
      · rw [plainMaxLoop_cons_none FS fuel s depth a rest me best hsub] at h
        cases h
      · rw [plainMaxLoop_cons_some FS fuel s depth a rest me best v act' hsub] at h
        by_cases hv : v > me
        · simp only [if_pos hv] at h
          exact le_trans (le_of_lt hv) (ih _ _ _ _ _ _ h)
        · simp only [if_neg hv] at h
          exact ih _ _ _ _ _ _ h

/-- The unpruned minimizing loop's result is at most its accumulator. -/
theorem plainMinLoop_mono (FS : List Fusion) (fuel : ℕ) :
    ∀ (acts : List Action) (s : GameState) (depth : ℕ) (mi : QI)
      (best : Action) (V : QI) (aV : Option Action),
      plainMinLoop FS fuel s depth acts mi best = some (V, aV) → V ≤ mi := by
  intro acts
  induction acts with
  | nil =>
      intro s depth mi best V aV h
      rw [plainMinLoop] at h
      cases h
      exact le_rfl
  | cons a rest ih =>
      intro s depth mi best V aV h
      rcases hsub : minimaxPlain FS fuel (childState FS s false a)
          (childDepth a depth) (childMax a false) with _ | ⟨v, act'⟩
      · rw [plainMinLoop_cons_none FS fuel s depth a rest mi best hsub] at h
        cases h
      · rw [plainMinLoop_cons_some FS fuel s depth a rest mi best v act' hsub] at h
        by_cases hv : v < mi
        · simp only [if_pos hv] at h
          exact le_trans (ih _ _ _ _ _ _ h) (le_of_lt hv)
        · simp only [if_neg hv] at h
          exact ih _ _ _ _ _ _ h

/-- The unpruned maximizing loop returns a finite value when the fuel
dominates the measure. -/
theorem plainMaxLoop_isSome (FS : List Fusion) (fuel : ℕ)
    (hIH : ∀ s depth m, meas s depth < fuel →
      ∃ q act, minimaxPlain FS fuel s depth m = some (toQI q, act)) :
    ∀ (acts : List Action) (s : GameState) (depth : ℕ) (me : QI)
      (best : Action),
      depth ≠ 0 → meas s depth ≤ fuel →
      (∀ a ∈ acts, a ∈ get_possible_actions FS s.ai) →
      ((∃ q, me = toQI q) ∨ (me = ⊥ ∧ acts ≠ [])) →
      ∃ q act, plainMaxLoop FS fuel s depth acts me best =
        some (toQI q, some act) := by
  intro acts
  induction acts with
  | nil =>
      intro s depth me best hd hm hacts hme
      rcases hme with ⟨q, rfl⟩ | ⟨_, hne⟩
      · exact ⟨q, best, by rw [plainMaxLoop]⟩
      · exact absurd rfl hne
  | cons a rest ih =>
      intro s depth me best hd hm hacts hme
      have hmem' : a ∈ get_possible_actions FS (if true then s.ai else s.human) := by
        simpa using hacts a (List.mem_cons_self a rest)
      have hlt := childState_meas_lt' FS s true a depth hd hmem'
      obtain ⟨qc, act', hsub⟩ := hIH (childState FS s true a) (childDepth a depth)
        (childMax a true) (lt_of_lt_of_le hlt hm)
      rw [plainMaxLoop_cons_some FS fuel s depth a rest me best _ _ hsub]
      have hfin : ∃ q', (if toQI qc > me then toQI qc else me) = toQI q' := by
        rcases hme with ⟨q, rfl⟩ | ⟨rfl, _⟩
        · split_ifs <;> exact ⟨_, rfl⟩
        · rw [if_pos (bot_lt_toQI qc)]
          exact ⟨qc, rfl⟩
      obtain ⟨q', hq'⟩ := hfin
      rw [hq']
      exact ih s depth (toQI q') _ hd hm
        (fun b hb => hacts b (List.mem_cons_of_mem a hb)) (Or.inl ⟨q', rfl⟩)

/-- The unpruned minimizing loop returns a finite value when the fuel
dominates the measure. -/
theorem plainMinLoop_isSome (FS : List Fusion) (fuel : ℕ)
    (hIH : ∀ s depth m, meas s depth < fuel →
      ∃ q act, minimaxPlain FS fuel s depth m = some (toQI q, act)) :
    ∀ (acts : List Action) (s : GameState) (depth : ℕ) (mi : QI)
      (best : Action),
      depth ≠ 0 → meas s depth ≤ fuel →
      (∀ a ∈ acts, a ∈ get_possible_actions FS s.human) →
      ((∃ q, mi = toQI q) ∨ (mi = posInf ∧ acts ≠ [])) →
      ∃ q act, plainMinLoop FS fuel s depth acts mi best =
        some (toQI q, some act) := by
  intro acts
  induction acts with
  | nil =>
      intro s depth mi best hd hm hacts hmi
      rcases hmi with ⟨q, rfl⟩ | ⟨_, hne⟩
      · exact ⟨q, best, by rw [plainMinLoop]⟩
      · exact absurd rfl hne
  | cons a rest ih =>
      intro s depth mi best hd hm hacts hmi
      have hmem' : a ∈ get_possible_actions FS (if false then s.ai else s.human) := by
        simpa using hacts a (List.mem_cons_self a rest)
      have hlt := childState_meas_lt' FS s false a depth hd hmem'
      obtain ⟨qc, act', hsub⟩ := hIH (childState FS s false a) (childDepth a depth)
        (childMax a false) (lt_of_lt_of_le hlt hm)
      rw [plainMinLoop_cons_some FS fuel s depth a rest mi best _ _ hsub]
      have hfin : ∃ q', (if toQI qc < mi then toQI qc else mi) = toQI q' := by
        rcases hmi with ⟨q, rfl⟩ | ⟨rfl, _⟩
        · split_ifs <;> exact ⟨_, rfl⟩
        · rw [if_pos (toQI_lt_posInf qc)]
          exact ⟨qc, rfl⟩
      obtain ⟨q', hq'⟩ := hfin
      rw [hq']
      exact ih s depth (toQI q') _ hd hm
        (fun b hb => hacts b (List.mem_cons_of_mem a hb)) (Or.inl ⟨q', rfl⟩)

/-- With fuel above the measure, the unpruned minimax always returns, and
its value is finite. -/
theorem minimaxPlain_isSome (FS : List Fusion) :
    ∀ (fuel : ℕ) (s : GameState) (depth : ℕ) (m : Bool),
      meas s depth < fuel →
      ∃ q act, minimaxPlain FS fuel s depth m = some (toQI q, act) := by
  intro fuel
  induction fuel with
  | zero => intro s depth m h; omega
  | succ fuel ih =>
      intro s depth m hm
      rw [minimaxPlain]
      by_cases hterm : depth = 0 ∨ s.game_over = true
      · rw [if_pos hterm]
        exact ⟨_, none, rfl⟩
      · rw [if_neg hterm]
        have hd : depth ≠ 0 := fun h0 => hterm (Or.inl h0)
        have hm' : meas s depth ≤ fuel := by omega
        rcases hacts : get_possible_actions FS (if m then s.ai else s.human)
          with _ | ⟨a0, rest⟩
        · simp only [hacts]
          exact ⟨_, none, rfl⟩
        · simp only [hacts]
          cases m with
          | true =>
              simp only [if_true]
              obtain ⟨q, act, hq⟩ := plainMaxLoop_isSome FS fuel ih (a0 :: rest)
                s depth ⊥ a0 hd hm'
                (fun a ha => by rw [← hacts] at ha; simpa using ha)
                (Or.inr ⟨rfl, by simp⟩)
              exact ⟨q, some act, hq⟩
          | false =>
              simp only [Bool.false_eq_true, if_false]
              obtain ⟨q, act, hq⟩ := plainMinLoop_isSome FS fuel ih (a0 :: rest)
                s depth posInf a0 hd hm'
                (fun a ha => by rw [← hacts] at ha; simpa using ha)
                (Or.inr ⟨rfl, by simp⟩)
              exact ⟨q, some act, hq⟩

/-- The fail-soft window property, maximizing loop: relative to the entry
window, the loop's result is an upper bound on the unpruned value when it
fails low, a lower bound when it fails high, and exact strictly inside the
window. -/
theorem maxLoopWindow (FS : List Fusion) (fuel : ℕ)
    (hIH : ∀ s depth alpha beta m, meas s depth < fuel → alpha < beta →
      ∀ vab aab vp ap,
        minimaxAB FS fuel s depth alpha beta m = some (vab, aab) →
        minimaxPlain FS fuel s depth m = some (vp, ap) →
        (vab ≤ alpha → vp ≤ vab) ∧ (beta ≤ vab → vab ≤ vp) ∧
        (alpha < vab → vab < beta → vab = vp)) :
    ∀ (acts : List Action) (s : GameState) (depth : ℕ) (alpha beta MA MP : QI)
      (bA bP : Action),
      depth ≠ 0 → meas s depth ≤ fuel →
      (∀ a ∈ acts, a ∈ get_possible_actions FS s.ai) →
      alpha < beta → MA ≤ alpha → MP ≤ MA →
      ∀ R aR V aV,
        abMaxLoop FS fuel s depth acts alpha beta MA bA = some (R, aR) →
        plainMaxLoop FS fuel s depth acts MP bP = some (V, aV) →
        (R ≤ alpha → V ≤ R) ∧ (beta ≤ R → R ≤ V) ∧
        (alpha < R → R < beta → R = V) := by
  intro acts
  induction acts with
  | nil =>
      intro s depth alpha beta MA MP bA bP hd hm hacts hab hMAa hMPMA
        R aR V aV hR hV
      rw [abMaxLoop] at hR
      cases hR
      rw [plainMaxLoop] at hV
      cases hV
      refine ⟨fun _ => hMPMA, fun hb => ?_, fun hl _ => ?_⟩
      · exact absurd (lt_of_le_of_lt (le_trans hb hMAa) hab) (lt_irrefl _)
      · exact absurd (lt_of_lt_of_le hl hMAa) (lt_irrefl _)
  | cons a rest ih =>
      intro s depth alpha beta MA MP bA bP hd hm hacts hab hMAa hMPMA
        R aR V aV hR hV
      have hmem' : a ∈ get_possible_actions FS (if true then s.ai else s.human) := by
        simpa using hacts a (List.mem_cons_self a rest)
      have hrest : ∀ b ∈ rest, b ∈ get_possible_actions FS s.ai :=
        fun b hb => hacts b (List.mem_cons_of_mem a hb)
      have hlt := childState_meas_lt' FS s true a depth hd hmem'
      rcases hsub : minimaxAB FS fuel (childState FS s true a)
          (childDepth a depth) alpha beta (childMax a true) with _ | ⟨rab, acta⟩
      · rw [abMaxLoop_cons_none FS fuel s depth a rest alpha beta MA bA hsub] at hR
        cases hR
      rcases hsubP : minimaxPlain FS fuel (childState FS s true a)
          (childDepth a depth) (childMax a true) with _ | ⟨rp, actp⟩
      · rw [plainMaxLoop_cons_none FS fuel s depth a rest MP bP hsubP] at hV
        cases hV
      rw [abMaxLoop_cons_some FS fuel s depth a rest alpha beta MA bA
        rab acta hsub] at hR
      rw [plainMaxLoop_cons_some FS fuel s depth a rest MP bP rp actp hsubP] at hV
      obtain ⟨T1, T2, T3⟩ := hIH (childState FS s true a) (childDepth a depth)
        alpha beta (childMax a true) (lt_of_lt_of_le hlt hm) hab rab acta rp actp
        hsub hsubP
      rcases le_or_lt rab alpha with hle | hgt
      · -- the child failed low: both accumulators stay at or below alpha
        have hrp : rp ≤ rab := T1 hle
        rw [max_eq_left hle, if_neg (not_le.mpr hab)] at hR
        have hMA' : (if rab > MA then rab else MA) ≤ alpha := by
          split_ifs with h1
          · exact hle
          · exact hMAa
        have hMP' : (if rp > MP then rp else MP) ≤ (if rab > MA then rab else MA) := by
          split_ifs with h1 h2 h2
          · exact hrp
          · exact le_trans hrp (not_lt.mp h2)
          · exact le_trans hMPMA (le_of_lt h2)
          · exact hMPMA
        exact ih s depth alpha beta _ _ _ _ hd hm hrest hab hMA' hMP' R aR V aV hR hV
      · rcases lt_or_le rab beta with hlt2 | hge
        · -- the child value is exact strictly inside the window
          have hrp : rab = rp := T3 hgt hlt2
          have hMAlt : MA < rab := lt_of_le_of_lt hMAa hgt
          have hMPlt : MP < rp := by
            rw [← hrp]
            exact lt_of_le_of_lt (le_trans hMPMA hMAa) hgt
          rw [max_eq_right (le_of_lt hgt)] at hR
          rw [if_neg (not_le.mpr hlt2)] at hR
          simp only [if_pos hMAlt] at hR
          simp only [if_pos hMPlt] at hV
          rw [← hrp] at hV
          have hRmono := abMaxLoop_mono FS fuel rest s depth rab beta rab a R aR hR
          have hVmono := plainMaxLoop_mono FS fuel rest s depth rab a V aV hV
          obtain ⟨c1, c2, c3⟩ := ih s depth rab beta rab rab a a hd hm hrest hlt2
            le_rfl le_rfl R aR V aV hR hV
          refine ⟨fun hRa =>
              absurd (lt_of_lt_of_le (lt_of_lt_of_le hgt hRmono) hRa) (lt_irrefl _),
            c2, fun hl hr => ?_⟩
          rcases eq_or_lt_of_le hRmono with heq | hlt3
          · exact le_antisymm (heq ▸ hVmono) (c1 (heq ▸ le_rfl))
          · exact c3 hlt3 hr
        · -- the child failed high: the loop prunes here
          have hrp : rab ≤ rp := T2 hge
          have hMAlt : MA < rab := lt_of_le_of_lt hMAa (lt_of_lt_of_le hab hge)
          rw [max_eq_right (le_of_lt (lt_of_lt_of_le hab hge))] at hR
          rw [if_pos hge] at hR
          simp only [if_pos hMAlt] at hR
          obtain ⟨hReq, hAeq⟩ : rab = R ∧ some a = aR := by
            cases hR; exact ⟨rfl, rfl⟩
          subst hReq
          have hMPge : rp ≤ (if rp > MP then rp else MP) := by
            split_ifs with h1
            · exact le_rfl
            · exact not_lt.mp h1
          have hVmono := plainMaxLoop_mono FS fuel rest s depth _ _ V aV hV
          have hRV : rab ≤ V := le_trans hrp (le_trans hMPge hVmono)
          exact ⟨fun hRa =>
              absurd (lt_of_lt_of_le hab (le_trans hge hRa)) (lt_irrefl _),
            fun _ => hRV,
            fun _ hrB => absurd (lt_of_le_of_lt hge hrB) (lt_irrefl _)⟩

/-- The fail-soft window property, minimizing loop. -/
theorem minLoopWindow (FS : List Fusion) (fuel : ℕ)
    (hIH : ∀ s depth alpha beta m, meas s depth < fuel → alpha < beta →
      ∀ vab aab vp ap,
        minimaxAB FS fuel s depth alpha beta m = some (vab, aab) →
        minimaxPlain FS fuel s depth m = some (vp, ap) →
        (vab ≤ alpha → vp ≤ vab) ∧ (beta ≤ vab → vab ≤ vp) ∧
        (alpha < vab → vab < beta → vab = vp)) :
    ∀ (acts : List Action) (s : GameState) (depth : ℕ) (alpha beta MI MPm : QI)
      (bA bP : Action),
      depth ≠ 0 → meas s depth ≤ fuel →
      (∀ a ∈ acts, a ∈ get_possible_actions FS s.human) →
      alpha < beta → beta ≤ MI → MI ≤ MPm →
      ∀ R aR V aV,
        abMinLoop FS fuel s depth acts alpha beta MI bA = some (R, aR) →
        plainMinLoop FS fuel s depth acts MPm bP = some (V, aV) →
        (R ≤ alpha → V ≤ R) ∧ (beta ≤ R → R ≤ V) ∧
        (alpha < R → R < beta → R = V) := by
  intro acts
  induction acts with
  | nil =>
      intro s depth alpha beta MI MPm bA bP hd hm hacts hab hbMI hMIMP
        R aR V aV hR hV
      rw [abMinLoop] at hR
      cases hR
      rw [plainMinLoop] at hV
      cases hV
      refine ⟨fun hl => ?_, fun _ => hMIMP, fun _ hr => ?_⟩
      · exact absurd (lt_of_lt_of_le hab (le_trans hbMI hl)) (lt_irrefl _)
      · exact absurd (lt_of_le_of_lt hbMI hr) (lt_irrefl _)
  | cons a rest ih =>
      intro s depth alpha beta MI MPm bA bP hd hm hacts hab hbMI hMIMP
        R aR V aV hR hV
      have hmem' : a ∈ get_possible_actions FS (if false then s.ai else s.human) := by
        simpa using hacts a (List.mem_cons_self a rest)
      have hrest : ∀ b ∈ rest, b ∈ get_possible_actions FS s.human :=
        fun b hb => hacts b (List.mem_cons_of_mem a hb)
      have hlt := childState_meas_lt' FS s false a depth hd hmem'
      rcases hsub : minimaxAB FS fuel (childState FS s false a)
          (childDepth a depth) alpha beta (childMax a false) with _ | ⟨rab, acta⟩
      · rw [abMinLoop_cons_none FS fuel s depth a rest alpha beta MI bA hsub] at hR
        cases hR
      rcases hsubP : minimaxPlain FS fuel (childState FS s false a)
          (childDepth a depth) (childMax a false) with _ | ⟨rp, actp⟩
      · rw [plainMinLoop_cons_none FS fuel s depth a rest MPm bP hsubP] at hV
        cases hV
      rw [abMinLoop_cons_some FS fuel s depth a rest alpha beta MI bA
        rab acta hsub] at hR
      rw [plainMinLoop_cons_some FS fuel s depth a rest MPm bP rp actp hsubP] at hV
      obtain ⟨T1, T2, T3⟩ := hIH (childState FS s false a) (childDepth a depth)
        alpha beta (childMax a false) (lt_of_lt_of_le hlt hm) hab rab acta rp actp
        hsub hsubP
      rcases le_or_lt beta rab with hge | hlt2
      · -- the child failed high: both accumulators stay at or above beta
        have hrp : rab ≤ rp := T2 hge
        rw [min_eq_left hge, if_neg (not_le.mpr hab)] at hR
        have hMI' : beta ≤ (if rab < MI then rab else MI) := by
          split_ifs with h1
          · exact hge
          · exact hbMI
        have hMP' : (if rab < MI then rab else MI) ≤ (if rp < MPm then rp else MPm) := by
          split_ifs with h1 h2 h2
          · exact hrp
          · exact le_of_lt (lt_of_lt_of_le h1 hMIMP)
          · exact le_trans (not_lt.mp h1) hrp
          · exact hMIMP
        exact ih s depth alpha beta _ _ _ _ hd hm hrest hab hMI' hMP' R aR V aV hR hV
      · rcases lt_or_le alpha rab with hgt | hle
        · -- the child value is exact strictly inside the window
          have hrp : rab = rp := T3 hgt hlt2
          have hMIlt : rab < MI := lt_of_lt_of_le hlt2 hbMI
          have hMPlt : rp < MPm := by
            rw [← hrp]
            exact lt_of_lt_of_le hlt2 (le_trans hbMI hMIMP)
          rw [min_eq_right (le_of_lt hlt2)] at hR
          rw [if_neg (not_le.mpr hgt)] at hR
          simp only [if_pos hMIlt] at hR
          simp only [if_pos hMPlt] at hV
          rw [← hrp] at hV
          have hRmono := abMinLoop_mono FS fuel rest s depth alpha rab rab a R aR hR
          have hVmono := plainMinLoop_mono FS fuel rest s depth rab a V aV hV
          obtain ⟨c1, c2, c3⟩ := ih s depth alpha rab rab rab a a hd hm hrest hgt
            le_rfl le_rfl R aR V aV hR hV
          refine ⟨c1, fun hbR => ?_, fun hl hr => ?_⟩
          · exact absurd (lt_of_le_of_lt (le_trans hbR hRmono) hlt2) (lt_irrefl _)
          · rcases eq_or_lt_of_le hRmono with heq | hlt3
            · exact le_antisymm (c2 heq.ge) (hVmono.trans heq.ge)
            · exact c3 hl hlt3
        · -- the child failed low: the loop prunes here
          have hrp : rp ≤ rab := T1 hle
          have hMIlt : rab < MI := lt_of_le_of_lt hle (lt_of_lt_of_le hab hbMI)
          rw [min_eq_right (le_of_lt (lt_of_le_of_lt hle hab))] at hR
          rw [if_pos hle] at hR
          simp only [if_pos hMIlt] at hR
          obtain ⟨hReq, hAeq⟩ : rab = R ∧ some a = aR := by
            cases hR; exact ⟨rfl, rfl⟩
          subst hReq
          have hMPle : (if rp < MPm then rp else MPm) ≤ rp := by
            split_ifs with h1
            · exact le_rfl
            · exact not_lt.mp h1
          have hVmono := plainMinLoop_mono FS fuel rest s depth _ _ V aV hV
          have hVR : V ≤ rab := le_trans hVmono (le_trans hMPle hrp)
          exact ⟨fun _ => hVR,
            fun hbR => absurd (lt_of_lt_of_le hab (le_trans hbR hle)) (lt_irrefl _),
            fun hl _ => absurd (lt_of_lt_of_le hl hle) (lt_irrefl _)⟩

/-- Everything is at most `math.inf`. -/
theorem le_posInf (x : QI) : x ≤ posInf := le_top

/-- `-math.inf` is strictly below `math.inf`. -/
theorem bot_lt_posInf : (⊥ : QI) < posInf := WithBot.bot_lt_coe _

/-- The fail-soft window property at a node: exact strictly inside the
window, an upper bound on the unpruned value below it, a lower bound above
it. -/
theorem minimaxWindow (FS : List Fusion) :
    ∀ (fuel : ℕ) (s : GameState) (depth : ℕ) (alpha beta : QI) (m : Bool),
      meas s depth < fuel → alpha < beta →
      ∀ vab aab vp ap,
        minimaxAB FS fuel s depth alpha beta m = some (vab, aab) →
        minimaxPlain FS fuel s depth m = some (vp, ap) →
        (vab ≤ alpha → vp ≤ vab) ∧ (beta ≤ vab → vab ≤ vp) ∧
        (alpha < vab → vab < beta → vab = vp) := by
  intro fuel
  induction fuel with
  | zero => intro s depth alpha beta m h; omega
  | succ fuel ih =>
      intro s depth alpha beta m hm hab vab aab vp ap hA hP
      rw [minimaxAB] at hA
      rw [minimaxPlain] at hP
      by_cases hterm : depth = 0 ∨ s.game_over = true
      · rw [if_pos hterm] at hA hP
        cases hA
        cases hP
        exact ⟨fun _ => le_rfl, fun _ => le_rfl, fun _ _ => rfl⟩
      · rw [if_neg hterm] at hA hP
        have hd : depth ≠ 0 := fun h0 => hterm (Or.inl h0)
        have hm' : meas s depth ≤ fuel := by omega
        rcases hacts : get_possible_actions FS (if m then s.ai else s.human)
          with _ | ⟨a0, rest⟩
        · simp only [hacts] at hA hP
          cases hA
          cases hP
          exact ⟨fun _ => le_rfl, fun _ => le_rfl, fun _ _ => rfl⟩
        · simp only [hacts] at hA hP
          cases m with
          | true =>
              simp only [if_true] at hA hP
              exact maxLoopWindow FS fuel ih (a0 :: rest) s depth alpha beta
                ⊥ ⊥ a0 a0 hd hm'
                (fun a ha => by rw [← hacts] at ha; simpa using ha)
                hab bot_le le_rfl vab aab vp ap hA hP
          | false =>
              simp only [Bool.false_eq_true, if_false] at hA hP
              exact minLoopWindow FS fuel ih (a0 :: rest) s depth alpha beta
                posInf posInf a0 a0 hd hm'
                (fun a ha => by rw [← hacts] at ha; simpa using ha)
                hab (le_posInf beta) le_rfl vab aab vp ap hA hP

/-- At the root, with the full window and a finite (or `-inf`) running
maximum equal to the alpha bound, the pruned and unpruned maximizing loops
agree exactly, value and chosen action alike. -/
theorem rootMaxLoop (FS : List Fusion) (fuel : ℕ) :
    ∀ (acts : List Action) (s : GameState) (depth : ℕ) (ME : QI)
      (best : Action),
      depth ≠ 0 → meas s depth ≤ fuel →
      (∀ a ∈ acts, a ∈ get_possible_actions FS s.ai) →
      ((∃ q, ME = toQI q) ∨ ME = ⊥) →
      abMaxLoop FS fuel s depth acts ME posInf ME best =
        plainMaxLoop FS fuel s depth acts ME best := by
  intro acts
  induction acts with
  | nil =>
      intro s depth ME best _ _ _ _
      rw [abMaxLoop, plainMaxLoop]
  | cons a rest ih =>
      intro s depth ME best hd hm hacts hME
      have hmem' : a ∈ get_possible_actions FS (if true then s.ai else s.human) := by
        simpa using hacts a (List.mem_cons_self a rest)
      have hrest : ∀ b ∈ rest, b ∈ get_possible_actions FS s.ai :=
        fun b hb => hacts b (List.mem_cons_of_mem a hb)
      have hlt := childState_meas_lt' FS s true a depth hd hmem'
      obtain ⟨qc, acta, hsub⟩ := minimaxAB_isSome FS fuel (childState FS s true a)
        (childDepth a depth) ME posInf (childMax a true) (lt_of_lt_of_le hlt hm)
      obtain ⟨qp, actp, hsubP⟩ := minimaxPlain_isSome FS fuel
        (childState FS s true a) (childDepth a depth) (childMax a true)
        (lt_of_lt_of_le hlt hm)
      rw [abMaxLoop_cons_some FS fuel s depth a rest ME posInf ME best
        (toQI qc) acta hsub]
      rw [plainMaxLoop_cons_some FS fuel s depth a rest ME best
        (toQI qp) actp hsubP]
      have hMElt : ME < posInf := by
        rcases hME with ⟨q, rfl⟩ | rfl
        · exact toQI_lt_posInf q
        · exact bot_lt_posInf
      obtain ⟨T1, T2, T3⟩ := minimaxWindow FS fuel (childState FS s true a)
        (childDepth a depth) ME posInf (childMax a true)
        (lt_of_lt_of_le hlt hm) hMElt (toQI qc) acta (toQI qp) actp hsub hsubP
      have hnoprune : ¬ posInf ≤ max ME (toQI qc) :=
        not_le.mpr (max_lt hMElt (toQI_lt_posInf qc))
      rw [if_neg hnoprune]
      rcases le_or_lt (toQI qc) ME with hle | hgt
      · have hrp : toQI qp ≤ toQI qc := T1 hle
        simp only [if_neg (not_lt.mpr hle), if_neg (not_lt.mpr (le_trans hrp hle))]
        rw [max_eq_left hle]
        exact ih s depth ME best hd hm hrest hME
      · have heq : toQI qc = toQI qp := T3 hgt (toQI_lt_posInf qc)
        have hgtP : toQI qp > ME := heq ▸ hgt
        simp only [if_pos hgt, if_pos hgtP]
        rw [max_eq_right (le_of_lt hgt), ← heq]
        exact ih s depth (toQI qc) a hd hm hrest (Or.inl ⟨qc, rfl⟩)

/-- C6: alpha-beta pruning does not change the result.  From any starting
state and any fixed depth, called the way `get_best_move` calls it
(`alpha = -inf`, `beta = +inf`, AI maximizing) and with fuel above the
termination measure, the pruned search returns exactly the value-action
pair of the unpruned exhaustive minimax over the same tree with the same
left-to-right enumeration and first-found tie-breaking. -/
theorem alphabeta_eq_minimax (FS : List Fusion) (fuel : ℕ) (s : GameState)
    (depth : ℕ)
    (h : depth + s.ai.hand.length + s.human.hand.length < fuel) :
    minimaxAB FS fuel s depth ⊥ posInf true =
      minimaxPlain FS fuel s depth true := by
  have hm : meas s depth < fuel := h
  cases fuel with
  | zero => exact absurd hm (by omega)
  | succ fuel =>
      rw [minimaxAB, minimaxPlain]
      by_cases hterm : depth = 0 ∨ s.game_over = true
      · rw [if_pos hterm, if_pos hterm]
      · rw [if_neg hterm, if_neg hterm]
        have hd : depth ≠ 0 := fun h0 => hterm (Or.inl h0)
        have hm' : meas s depth ≤ fuel := by
          unfold meas at hm ⊢
          omega
        simp only [if_true]
        rcases hacts : get_possible_actions FS s.ai with _ | ⟨a0, rest⟩
        · rfl
        · exact rootMaxLoop FS fuel (a0 :: rest) s depth ⊥ a0 hd hm'
            (fun a ha => hacts ▸ ha) (Or.inr rfl)

/-- C6 witness: a concrete two-card midgame position searched at depth 3. -/
theorem alphabeta_eq_minimax_witness :
    let cA : Card := mkCard 1 "A" "Dragon" 1800 1200 "Light" 4
    let cB : Card := mkCard 2 "B" "Beast" 1500 1600 "Dark" 4
    let h0 : Player :=
      { mkPlayer "Jugador" false with
        hand := [cA],
        deck := [cB] }
    let a0 : Player :=
      { mkPlayer "IA" true with
        hand := [cB],
        field := some (cA.set_position "ATK") }
    let s : GameState := { mkGameState 20 with human := h0, ai := a0 }
    minimaxAB [] 6 s 3 ⊥ posInf true = minimaxPlain [] 6 s 3 true := by
  intro cA cB h0 a0 s
  exact alphabeta_eq_minimax [] 6 s 3 (by decide)

end FMGame
